import Mathlib

/-!
A shallow embedding of `alpha/declcfg/declcfg.go` (operator-registry):
the `Meta` decoder with its case-insensitive key resolver
`extractUniqueMetaKeys`, the trivial `Meta` encoder, and the JSON
unmarshal-error formatter `formatUnmarshallErrorString` (which relies on
`encoding/json.Indent` plus an offset-translation walk).

Modelling conventions:
* Go byte strings are modelled as `List Char`; this is byte-accurate for
  ASCII documents (multi-byte runes would make Go count bytes where the
  model counts characters).
* JSON numbers are modelled as integers (`Int`).  Go decodes JSON numbers
  into `float64`; the model restricts the document domain to integral
  numbers so that values keep decidable equality.
* Go's `map[string]interface` values are unordered with unique keys; the
  model represents every decoded JSON object as an association list that is
  strictly sorted by key (the canonical enumeration order of the map).
  Go's encoder emits map keys in sorted order, so emitting the model's
  fields in list order coincides with Go's output.
* Where the Go code iterates a map (whose order is unspecified), the model
  fixes a deterministic order, noted at each site.
* `cases.Fold` performs Unicode case folding; the model uses ASCII
  lowercasing (`Char.toLower`), which realises the same bucket structure on
  ASCII keys.
-/

namespace Declcfg

/-- JSON values as decoded by Go's `encoding/json` into dynamically typed
values (`nil`, `bool`, number, `string`, slice, map). -/
inductive JValue where
  | jnull : JValue
  | jbool (b : Bool) : JValue
  | jnum (n : Int) : JValue
  | jstr (s : List Char) : JValue
  | jarr (elems : List JValue) : JValue
  | jobj (fields : List (List Char × JValue)) : JValue

/-- Lexicographic (byte-wise) order on keys, as Go's `sort.Strings` uses
when the JSON encoder sorts map keys.  Code-point order coincides with
UTF-8 byte order. -/
def ltKey : List Char → List Char → Bool
  | [], [] => false
  | [], _ :: _ => true
  | _ :: _, [] => false
  | a :: as, b :: bs => a.toNat < b.toNat || (a = b && ltKey as bs)

mutual
/-- A decoded value is canonical when every object in it is strictly sorted
by key: the shape produced by decoding into Go maps and enumerating them in
sorted key order. -/
def canonicalV : JValue → Bool
  | .jnull => true
  | .jbool _ => true
  | .jnum _ => true
  | .jstr _ => true
  | .jarr xs => canonicalL xs
  | .jobj fs => canonicalF fs

/-- Canonicality for array elements. -/
def canonicalL : List JValue → Bool
  | [] => true
  | x :: xs => canonicalV x && canonicalL xs

/-- Canonicality for object fields: values canonical and keys strictly
ascending. -/
def canonicalF : List (List Char × JValue) → Bool
  | [] => true
  | (_, v) :: [] => canonicalV v
  | (k, v) :: (k', v') :: fs =>
      canonicalV v && ltKey k k' && canonicalF ((k', v') :: fs)
end

/-- Decimal digit character (`'0'` + n). -/
def digitChar (n : Nat) : Char := Char.ofNat (48 + n)

/-- Decimal rendering of a natural number, most significant digit first
(the accumulator form of Go's integer formatting).  The fuel argument only
forces structural termination; `natDigits` supplies enough for any
value. -/
def natDigitsAux : Nat → Nat → List Char → List Char
  | 0, n, acc => digitChar n :: acc
  | fuel + 1, n, acc =>
    if n < 10 then digitChar n :: acc
    else natDigitsAux fuel (n / 10) (digitChar (n % 10) :: acc)

/-- Decimal rendering of a natural number. -/
def natDigits (n : Nat) : List Char := natDigitsAux n n []

/-- Decimal rendering of an integer (Go prints integral `float64` values
without fraction or exponent). -/
def encInt : Int → List Char
  | .ofNat n => natDigits n
  | .negSucc n => '-' :: natDigits (n + 1)

/-- Lowercase hexadecimal digit, as Go's JSON encoder uses in escape
sequences. -/
def hexChar (n : Nat) : Char :=
  if n < 10 then Char.ofNat (48 + n) else Char.ofNat (87 + n)

/-- Escape one character the way Go's JSON encoder does with
`SetEscapeHTML(false)`: quote, backslash, `\n`, `\r`, `\t`, other control
characters as `\u00XX`, and U+2028/U+2029 as ` `/` `. -/
def escChar (c : Char) : List Char :=
  if c = '"' then ['\\', '"']
  else if c = '\\' then ['\\', '\\']
  else if c = '\n' then ['\\', 'n']
  else if c = '\r' then ['\\', 'r']
  else if c = '\t' then ['\\', 't']
  else if c.toNat < 32 then
    ['\\', 'u', '0', '0', hexChar (c.toNat / 16), hexChar (c.toNat % 16)]
  else if c.toNat = 8232 ∨ c.toNat = 8233 then
    ['\\', 'u', '2', '0', '2', hexChar (c.toNat % 16)]
  else [c]

/-- Escape a whole string body (no surrounding quotes). -/
def escStr : List Char → List Char
  | [] => []
  | c :: cs => escChar c ++ escStr cs

mutual
/-- Compact JSON encoding of a value, as Go's `json.Encoder` with HTML
escaping disabled produces (map keys already in sorted order in the
canonical representation). -/
def encVal : JValue → List Char
  | .jnull => ['n', 'u', 'l', 'l']
  | .jbool true => ['t', 'r', 'u', 'e']
  | .jbool false => ['f', 'a', 'l', 's', 'e']
  | .jnum n => encInt n
  | .jstr s => '"' :: escStr s ++ ['"']
  | .jarr [] => ['[', ']']
  | .jarr (x :: xs) => '[' :: (encVal x ++ encElems xs) ++ [']']
  | .jobj [] => ['{', '}']
  | .jobj (f :: fs) => '{' :: (encKV f ++ encFields fs) ++ ['}']

/-- Remaining array elements, each preceded by a comma. -/
def encElems : List JValue → List Char
  | [] => []
  | x :: xs => ',' :: encVal x ++ encElems xs

/-- One object member: quoted escaped key, colon, value. -/
def encKV : List Char × JValue → List Char
  | (k, v) => '"' :: escStr k ++ '"' :: ':' :: encVal v

/-- Remaining object members, each preceded by a comma. -/
def encFields : List (List Char × JValue) → List Char
  | [] => []
  | f :: fs => ',' :: encKV f ++ encFields fs
end

/-- JSON inter-token whitespace (space, tab, newline, carriage return). -/
def isWSChar (c : Char) : Bool := c = ' ' || c = '\t' || c = '\n' || c = '\r'

/-- Drop leading JSON whitespace. -/
def skipWS : List Char → List Char
  | [] => []
  | c :: rest => if isWSChar c then skipWS rest else c :: rest

/-- Hexadecimal digit test (both cases), as in JSON `\uXXXX` escapes. -/
def isHexChar (c : Char) : Bool :=
  ('0' ≤ c && c ≤ '9') || ('a' ≤ c && c ≤ 'f') || ('A' ≤ c && c ≤ 'F')

/-- Value of a hexadecimal digit character. -/
def hexVal (c : Char) : Nat :=
  if 97 ≤ c.toNat then c.toNat - 87
  else if 65 ≤ c.toNat then c.toNat - 55
  else c.toNat - 48

/-- Value of a four-digit hexadecimal escape. -/
def hexVal4 (a b c d : Char) : Nat :=
  ((hexVal a * 16 + hexVal b) * 16 + hexVal c) * 16 + hexVal d

/-- The single-character escapes JSON accepts after a backslash. -/
def isSimpleEsc (c : Char) : Bool :=
  c = '"' || c = '\\' || c = '/' || c = 'b' || c = 'f' || c = 'n' || c = 'r' || c = 't'

/-- Scan a JSON string body starting just after the opening quote, as Go's
scanner does: raw characters (escapes kept verbatim) up to the closing
quote, plus the rest of the input after that quote.  Control characters
below U+0020 are rejected, as are malformed escapes. -/
def lexStr : List Char → Option (List Char × List Char)
  | [] => none
  | c :: rest =>
    if c = '"' then some ([], rest)
    else if c = '\\' then
      match rest with
      | [] => none
      | e :: rest2 =>
        if e = 'u' then
          match rest2 with
          | h1 :: h2 :: h3 :: h4 :: rest3 =>
            if isHexChar h1 && isHexChar h2 && isHexChar h3 && isHexChar h4 then
              (lexStr rest3).map (fun p => ('\\' :: 'u' :: h1 :: h2 :: h3 :: h4 :: p.1, p.2))
            else none
          | _ => none
        else if isSimpleEsc e then
          (lexStr rest2).map (fun p => ('\\' :: e :: p.1, p.2))
        else none
    else if c.toNat < 32 then none
    else (lexStr rest).map (fun p => (c :: p.1, p.2))

mutual
/-- Decode the escape sequences of a scanned string body, as Go's
`unquote` does (unpaired surrogates become U+FFFD, pairs are combined).
The fuel argument only forces structural termination; `unescape` supplies
enough for any input. -/
def unescapeF : Nat → List Char → Option (List Char)
  | 0, _ => none
  | fuel + 1, l =>
    match l with
    | [] => some []
    | c :: rest =>
      if c = '\\' then
        match rest with
        | [] => none
        | e :: rest2 =>
          if e = 'u' then
            match rest2 with
            | h1 :: h2 :: h3 :: h4 :: rest3 =>
              if isHexChar h1 && isHexChar h2 && isHexChar h3 && isHexChar h4 then
                let n := hexVal4 h1 h2 h3 h4
                if 55296 ≤ n ∧ n < 57344 then
                  if n < 56320 then unescapeSurrF fuel n rest3
                  else (unescapeF fuel rest3).map (fun s => Char.ofNat 65533 :: s)
                else (unescapeF fuel rest3).map (fun s => Char.ofNat n :: s)
              else none
            | _ => none
          else if e = '"' then (unescapeF fuel rest2).map (fun s => '"' :: s)
          else if e = '\\' then (unescapeF fuel rest2).map (fun s => '\\' :: s)
          else if e = '/' then (unescapeF fuel rest2).map (fun s => '/' :: s)
          else if e = 'b' then (unescapeF fuel rest2).map (fun s => Char.ofNat 8 :: s)
          else if e = 'f' then (unescapeF fuel rest2).map (fun s => Char.ofNat 12 :: s)
          else if e = 'n' then (unescapeF fuel rest2).map (fun s => '\n' :: s)
          else if e = 'r' then (unescapeF fuel rest2).map (fun s => '\r' :: s)
          else if e = 't' then (unescapeF fuel rest2).map (fun s => '\t' :: s)
          else none
      else (unescapeF fuel rest).map (fun s => c :: s)

/-- Continuation after a high surrogate `\uXXXX` with value `n`: combine
with an immediately following low surrogate escape, otherwise emit U+FFFD
and rescan from the same position, exactly as Go's `unquote` does. -/
def unescapeSurrF : Nat → Nat → List Char → Option (List Char)
  | 0, _, _ => none
  | fuel + 1, n, l =>
    match l with
    | b1 :: u1 :: g1 :: g2 :: g3 :: g4 :: rest4 =>
      if b1 = '\\' && u1 = 'u' && isHexChar g1 && isHexChar g2 &&
          isHexChar g3 && isHexChar g4 then
        let n2 := hexVal4 g1 g2 g3 g4
        if 56320 ≤ n2 ∧ n2 < 57344 then
          (unescapeF fuel rest4).map
            (fun s => Char.ofNat (65536 + (n - 55296) * 1024 + (n2 - 56320)) :: s)
        else (unescapeF fuel (b1 :: u1 :: g1 :: g2 :: g3 :: g4 :: rest4)).map
          (fun s => Char.ofNat 65533 :: s)
      else (unescapeF fuel (b1 :: u1 :: g1 :: g2 :: g3 :: g4 :: rest4)).map
        (fun s => Char.ofNat 65533 :: s)
    | other => (unescapeF fuel other).map (fun s => Char.ofNat 65533 :: s)
end

/-- Decode the escape sequences of a scanned string body (fuel instantiated
so that it never runs out: every two steps consume at least one
character). -/
def unescape (l : List Char) : Option (List Char) :=
  unescapeF (2 * l.length + 1) l

/-- Longest leading run of decimal digits. -/
def spanDigits : List Char → List Char × List Char
  | [] => ([], [])
  | c :: rest =>
    if c.isDigit then
      let p := spanDigits rest
      (c :: p.1, p.2)
    else ([], c :: rest)

/-- One or more decimal digits. -/
def lexDigits (l : List Char) : Option (List Char × List Char) :=
  match spanDigits l with
  | ([], _) => none
  | (d, r) => some (d, r)

/-- Integer part of a JSON number: `0` alone, or a nonzero digit followed
by more digits (leading zeros are a syntax error in Go's scanner). -/
def lexIntPart : List Char → Option (List Char × List Char)
  | [] => none
  | c :: rest =>
    if c = '0' then some (['0'], rest)
    else if c.isDigit then
      let p := spanDigits rest
      some (c :: p.1, p.2)
    else none

/-- Optional fraction part `.digits`. -/
def lexFrac : List Char → Option (List Char × List Char)
  | [] => some ([], [])
  | c :: rest =>
    if c = '.' then (lexDigits rest).map (fun p => ('.' :: p.1, p.2))
    else some ([], c :: rest)

/-- Optional exponent part `[eE][+-]?digits`. -/
def lexExp (l : List Char) : Option (List Char × List Char) :=
  match l with
  | c :: rest =>
    if c = 'e' ∨ c = 'E' then
      match rest with
      | s :: rest2 =>
        if s = '+' ∨ s = '-' then
          (lexDigits rest2).map (fun p => (c :: s :: p.1, p.2))
        else (lexDigits rest).map (fun p => (c :: p.1, p.2))
      | [] => none
    else some ([], l)
  | [] => some ([], l)

/-- Scan a JSON number token (full grammar, as Go's scanner accepts). -/
def lexNum (l : List Char) : Option (List Char × List Char) :=
  let sl := match l with
    | '-' :: r => (['-'], r)
    | _ => (([] : List Char), l)
  match lexIntPart sl.2 with
  | none => none
  | some (i, l2) =>
    match lexFrac l2 with
    | none => none
    | some (f, l3) =>
      match lexExp l3 with
      | none => none
      | some (e, l4) => some (sl.1 ++ i ++ f ++ e, l4)

/-- Accumulate the value of a decimal digit run. -/
def digitsToNatAux (acc : Nat) : List Char → Nat
  | [] => acc
  | c :: cs => digitsToNatAux (acc * 10 + (c.toNat - 48)) cs

/-- Numeric value of a scanned number token, provided it is integral
(model restriction: fraction/exponent forms are outside the embedded
domain). -/
def rawToInt (raw : List Char) : Option Int :=
  match raw with
  | '-' :: ds =>
    if ds ≠ [] ∧ ds.all Char.isDigit then some (-(digitsToNatAux 0 ds : Int)) else none
  | ds =>
    if ds ≠ [] ∧ ds.all Char.isDigit then some ((digitsToNatAux 0 ds : Int)) else none

/-- Insert a field into a key-sorted association list, overwriting an equal
key: the model of storing into a Go map (later duplicate keys in the JSON
text overwrite earlier ones, and enumeration is in sorted key order). -/
def insertField (k : List Char) (v : JValue) : List (List Char × JValue) → List (List Char × JValue)
  | [] => [(k, v)]
  | (k', v') :: fs =>
    if ltKey k k' then (k, v) :: (k', v') :: fs
    else if k = k' then (k, v) :: fs
    else (k', v') :: insertField k v fs

mutual
/-- Recursive-descent JSON parser, the model of `encoding/json.Unmarshal`
into dynamically typed Go values.  The fuel argument only forces
termination; `parseDoc` supplies enough for any input. -/
def parseVal : Nat → List Char → Option (JValue × List Char)
  | 0, _ => none
  | fuel + 1, l =>
    match skipWS l with
    | [] => none
    | c :: r =>
      if c = '{' then
        match skipWS r with
        | '}' :: r2 => some (.jobj [], r2)
        | r2 => parseMembers fuel r2 []
      else if c = '[' then
        match skipWS r with
        | ']' :: r2 => some (.jarr [], r2)
        | r2 => parseElems fuel r2 []
      else if c = '"' then
        match lexStr r with
        | none => none
        | some (raw, r2) =>
          match unescape raw with
          | none => none
          | some s => some (.jstr s, r2)
      else if c = 't' then
        match r with
        | 'r' :: 'u' :: 'e' :: r2 => some (.jbool true, r2)
        | _ => none
      else if c = 'f' then
        match r with
        | 'a' :: 'l' :: 's' :: 'e' :: r2 => some (.jbool false, r2)
        | _ => none
      else if c = 'n' then
        match r with
        | 'u' :: 'l' :: 'l' :: r2 => some (.jnull, r2)
        | _ => none
      else if c = '-' || c.isDigit then
        match lexNum (c :: r) with
        | none => none
        | some (raw, r2) =>
          match rawToInt raw with
          | none => none
          | some n => some (.jnum n, r2)
      else none

/-- Members of a nonempty object, input positioned at the opening quote of
the next key; fields accumulate into the sorted map representation. -/
def parseMembers : Nat → List Char → List (List Char × JValue) → Option (JValue × List Char)
  | 0, _, _ => none
  | fuel + 1, l, acc =>
    match l with
    | '"' :: r =>
      match lexStr r with
      | none => none
      | some (kraw, r2) =>
        match unescape kraw with
        | none => none
        | some k =>
          match skipWS r2 with
          | ':' :: r3 =>
            match parseVal fuel r3 with
            | none => none
            | some (v, r4) =>
              match skipWS r4 with
              | ',' :: r5 => parseMembers fuel (skipWS r5) (insertField k v acc)
              | '}' :: r5 => some (.jobj (insertField k v acc), r5)
              | _ => none
          | _ => none
    | _ => none

/-- Elements of a nonempty array, in input order. -/
def parseElems : Nat → List Char → List JValue → Option (JValue × List Char)
  | 0, _, _ => none
  | fuel + 1, l, acc =>
    match parseVal fuel l with
    | none => none
    | some (v, r) =>
      match skipWS r with
      | ',' :: r2 => parseElems fuel r2 (acc ++ [v])
      | ']' :: r2 => some (.jarr (acc ++ [v]), r2)
      | _ => none
end

/-- Parse a complete JSON document: one value with only whitespace after
it, as `json.Unmarshal` requires. -/
def parseDoc (blob : List Char) : Option JValue :=
  match parseVal (blob.length + 1) blob with
  | some (v, rest) => if skipWS rest = [] then some v else none
  | none => none

/-- Model of `cases.Fold` (Unicode case folding) restricted to ASCII:
locale-independent lowercasing applied characterwise. -/
def fold (s : List Char) : List Char := s.map Char.toLower

/-- The `Meta` struct: three extracted identity fields plus the opaque
payload bytes (`json.RawMessage`). -/
structure Meta where
  Schema : List Char
  Package : List Char
  Name : List Char
  Blob : List Char
deriving DecidableEq

/-- The errors `Meta.UnmarshalJSON` can return, carried structurally:
`syntaxErr` for invalid JSON, `notObject` for a valid non-object document
(Go reports an `UnmarshalTypeError`), `dupKeys` for the aggregate
duplicate-key error (each entry: folded key with the sorted list of
colliding original keys), and `typeMismatch` for a non-string value under
a well-known key (the message renders the key and the value). -/
inductive MetaErr where
  | syntaxErr : MetaErr
  | notObject : MetaErr
  | dupKeys (dups : List (List Char × List (List Char))) : MetaErr
  | typeMismatch (key : List Char) (value : JValue) : MetaErr

/-- The three canonical `Meta` fields. -/
inductive MetaField where
  | schema : MetaField
  | pkg : MetaField
  | name : MetaField

/-- Store an extracted value through the field pointer, as the Go loop's
`*ptr = v` does. -/
def setField : MetaField → List Char → Meta → Meta
  | .schema, s, m => { m with Schema := s }
  | .pkg, s, m => { m with Package := s }
  | .name, s, m => { m with Name := s }

/-- Record a key under its folded form: `keySets[foldKey].Insert(key)`.
Go's sets are unordered; the model keeps insertion order. -/
def insertKS (fk k : List Char) :
    List (List Char × List (List Char)) → List (List Char × List (List Char))
  | [] => [(fk, [k])]
  | (fk', ks) :: rest =>
    if fk' = fk then (fk', ks ++ [k]) :: rest else (fk', ks) :: insertKS fk k rest

/-- Group the object's keys by folded form (the `keySets` loop).  Go
iterates the blob map in unspecified order; the model iterates the sorted
field list. -/
def buildKeySets : List (List Char × JValue) →
    List (List Char × List (List Char)) → List (List Char × List (List Char))
  | [], acc => acc
  | (k, _) :: rest, acc => buildKeySets rest (insertKS (fold k) k acc)

/-- Look up a folded key's bucket. -/
def lookupKS (ks : List (List Char × List (List Char))) (fk : List Char) :
    Option (List (List Char)) :=
  match ks with
  | [] => none
  | (fk', b) :: rest => if fk' = fk then some b else lookupKS rest fk

/-- Look up a key in the decoded object. -/
def lookupBM (bm : List (List Char × JValue)) (k : List Char) : Option JValue :=
  match bm with
  | [] => none
  | (k', v) :: rest => if k' = k then some v else lookupBM rest k

/-- Insert into an ascending list of keys (insertion sort step). -/
def insertSortedKey (k : List Char) : List (List Char) → List (List Char)
  | [] => [k]
  | h :: t => if ltKey k h then k :: h :: t else h :: insertSortedKey k t

/-- Sort a list of keys ascending, the model of Go's `sets.List`. -/
def sortKeys (l : List (List Char)) : List (List Char) := l.foldr insertSortedKey []

/-- The `metaMap` of the Go code: folded canonical name to field pointer.
Go iterates this map in unspecified order; the model fixes the source
literal's order (schema, package, name). -/
def metaFields : List (List Char × MetaField) :=
  [(fold "schema".data, .schema), (fold "package".data, .pkg), (fold "name".data, .name)]

/-- The extraction loop over `metaMap`: fetch the unique original key per
canonical name, skip absent ones, store string values through the field
pointer, and fail on the first non-string value.  Note the loop mutates
the `Meta` before a later entry can fail. -/
def extractLoop : List (List Char × MetaField) → List (List Char × List (List Char)) →
    List (List Char × JValue) → Meta → Meta × Option MetaErr
  | [], _, _, m => (m, none)
  | (fk, f) :: rest, ks, bm, m =>
    match lookupKS ks fk with
    | none => extractLoop rest ks bm m
    | some bucket =>
      match bucket with
      | [] => extractLoop rest ks bm m
      | key :: _ =>
        match lookupBM bm key with
        | none => extractLoop rest ks bm m
        | some (.jstr s) => extractLoop rest ks bm (setField f s m)
        | some v => (m, some (.typeMismatch key v))

/-- The `dupErrs` collection: every fold-bucket holding more than one key,
as a pair of the folded key and the sorted list of colliding originals
(Go renders each with `%q: %v` and aggregates). -/
def dupKeyErrs (bm : List (List Char × JValue)) : List (List Char × List (List Char)) :=
  ((buildKeySets bm []).filter (fun p => p.2.length != 1)).map
    (fun p => (p.1, sortKeys p.2))

/-- `extractUniqueMetaKeys`: group keys by folded form, fail with one
aggregate error listing every ambiguous bucket (folded key plus the sorted
colliding originals), then run the extraction loop. -/
def extractUniqueMetaKeys (bm : List (List Char × JValue)) (m : Meta) :
    Meta × Option MetaErr :=
  if dupKeyErrs bm = [] then extractLoop metaFields (buildKeySets bm []) bm m
  else (m, some (.dupKeys (dupKeyErrs bm)))

/-- `Meta.UnmarshalJSON`: parse the document into a generic object, run
the key resolver, then store the deterministic re-encoding (HTML escaping
disabled; Go's `Encoder.Encode` appends a newline) as the payload. -/
def unmarshalMeta (blob : List Char) (m : Meta) : Meta × Option MetaErr :=
  match parseDoc blob with
  | none => (m, some .syntaxErr)
  | some (.jobj bm) =>
    match extractUniqueMetaKeys bm m with
    | (m', some e) => (m', some e)
    | (m', none) => ({ m' with Blob := encVal (.jobj bm) ++ ['\n'] }, none)
  | some _ => (m, some .notObject)

/-- `Meta.MarshalJSON`: return the payload bytes unchanged, never an
error. -/
def marshalMeta (m : Meta) : List Char × Option MetaErr := (m.Blob, none)

/-- A `Meta` with all fields at their zero values. -/
def emptyMeta : Meta := ⟨[], [], [], []⟩

/-- Newline plus the indentation for the given depth (4-space indent,
empty prefix), as `json.Indent` inserts. -/
def nlIndent (depth : Nat) : List Char := '\n' :: List.replicate (4 * depth) ' '

mutual
/-- Model of `encoding/json.Indent` with empty prefix and 4-space indent:
re-emit one value starting at the given depth, dropping the source's own
whitespace, passing string/number/literal tokens through verbatim, and
inserting newline-plus-indent line breaks and a space after each colon.
Fuel only forces termination; `jsonIndent` supplies enough. -/
def indentV : Nat → List Char → Nat → Option (List Char × List Char)
  | 0, _, _ => none
  | fuel + 1, l, depth =>
    match skipWS l with
    | [] => none
    | c :: r =>
      if c = '{' then
        match skipWS r with
        | '}' :: r2 => some (['{', '}'], r2)
        | r2 =>
          match indentMembers fuel r2 (depth + 1) with
          | none => none
          | some (out, rest) =>
            some ('{' :: nlIndent (depth + 1) ++ out ++ nlIndent depth ++ ['}'], rest)
      else if c = '[' then
        match skipWS r with
        | ']' :: r2 => some (['[', ']'], r2)
        | r2 =>
          match indentElems fuel r2 (depth + 1) with
          | none => none
          | some (out, rest) =>
            some ('[' :: nlIndent (depth + 1) ++ out ++ nlIndent depth ++ [']'], rest)
      else if c = '"' then
        match lexStr r with
        | none => none
        | some (raw, r2) => some ('"' :: raw ++ ['"'], r2)
      else if c = 't' then
        match r with
        | 'r' :: 'u' :: 'e' :: r2 => some (['t', 'r', 'u', 'e'], r2)
        | _ => none
      else if c = 'f' then
        match r with
        | 'a' :: 'l' :: 's' :: 'e' :: r2 => some (['f', 'a', 'l', 's', 'e'], r2)
        | _ => none
      else if c = 'n' then
        match r with
        | 'u' :: 'l' :: 'l' :: r2 => some (['n', 'u', 'l', 'l'], r2)
        | _ => none
      else if c = '-' || c.isDigit then
        match lexNum (c :: r) with
        | none => none
        | some (raw, r2) => some (raw, r2)
      else none

/-- Members of a nonempty object being re-indented: each member is
`"key": value`, members separated by a comma and a line break at the
current depth; consumes through the closing brace. -/
def indentMembers : Nat → List Char → Nat → Option (List Char × List Char)
  | 0, _, _ => none
  | fuel + 1, l, depth =>
    match l with
    | '"' :: r =>
      match lexStr r with
      | none => none
      | some (raw, r2) =>
        match skipWS r2 with
        | ':' :: r3 =>
          match indentV fuel r3 depth with
          | none => none
          | some (vout, r4) =>
            match skipWS r4 with
            | ',' :: r5 =>
              match indentMembers fuel (skipWS r5) depth with
              | none => none
              | some (mout, r6) =>
                some ('"' :: raw ++ '"' :: ':' :: ' ' :: vout ++ ',' :: nlIndent depth ++ mout, r6)
            | '}' :: r5 => some ('"' :: raw ++ '"' :: ':' :: ' ' :: vout, r5)
            | _ => none
        | _ => none
    | _ => none

/-- Elements of a nonempty array being re-indented; consumes through the
closing bracket. -/
def indentElems : Nat → List Char → Nat → Option (List Char × List Char)
  | 0, _, _ => none
  | fuel + 1, l, depth =>
    match indentV fuel l depth with
    | none => none
    | some (vout, r) =>
      match skipWS r with
      | ',' :: r2 =>
        match indentElems fuel (skipWS r2) depth with
        | none => none
        | some (eout, r3) => some (vout ++ ',' :: nlIndent depth ++ eout, r3)
      | ']' :: r2 => some (vout, r2)
      | _ => none
end

/-- `json.Indent(&pretty, data, "", "    ")`: one complete value, only
whitespace after it, else an error (`none`). -/
def jsonIndent (data : List Char) : Option (List Char) :=
  match indentV (data.length + 1) data 0 with
  | none => none
  | some (out, rest) => if skipWS rest = [] then some out else none

/-- The offset-translation walk of `formatUnmarshallErrorString`: advance
through the pretty string, counting a character unless it is a newline or
a space, until `offset` characters have been counted; `none` models the
out-of-bounds panic when the pretty string runs out first. -/
def translateOffset : List Char → Nat → Option Nat
  | _, 0 => some 0
  | [], _ + 1 => none
  | c :: cs, n + 1 =>
    if c = '\n' ∨ c = ' ' then (translateOffset cs (n + 1)).map (· + 1)
    else (translateOffset cs n).map (· + 1)

/-- `formatUnmarshallErrorString`: header, then either the re-indented
document split at the translated offset, or (when indenting fails) the raw
document split at the raw offset; `none` models an out-of-range panic. -/
def formatUnmarshallErrorString (data errmsg : List Char) (offset : Nat) :
    Option (List Char) :=
  let header := errmsg ++ " at offset ".data ++ natDigits offset ++ " (indicated by <==)\n ".data
  match jsonIndent data with
  | some p =>
    match translateOffset p offset with
    | some k => some (header ++ p.take k ++ " <== ".data ++ p.drop k)
    | none => none
  | none =>
    if offset ≤ data.length then
      some (header ++ data.take offset ++ " <== ".data ++ data.drop offset)
    else none

/-- Characters the offset-translation walk counts: everything that is not
a newline or a space. -/
def countable (c : Char) : Bool := !(c = '\n' || c = ' ')

/-- Remove every character the walk skips (newlines and spaces). -/
def strip (l : List Char) : List Char := l.filter countable

/-- A document with no JSON whitespace characters anywhere (in particular
no spaces inside string literals). -/
def NoWS (l : List Char) : Prop := ∀ c ∈ l, isWSChar c = false

/-! Basic facts about `strip`, `NoWS` and `skipWS`. -/

theorem strip_append (a b : List Char) : strip (a ++ b) = strip a ++ strip b := by
  simp [strip]

theorem strip_cons (c : Char) (l : List Char) :
    strip (c :: l) = if countable c then c :: strip l else strip l := by
  simp [strip, List.filter_cons]

theorem strip_replicate_space (n : Nat) : strip (List.replicate n ' ') = [] := by
  induction n with
  | zero => rfl
  | succ n ih =>
    have h : countable ' ' = false := by decide
    simp [List.replicate_succ, strip_cons, h, ih]

theorem strip_nlIndent (d : Nat) : strip (nlIndent d) = [] := by
  have h : countable '\n' = false := by decide
  simp [nlIndent, strip_cons, h, strip_replicate_space]

theorem noWS_cons {c : Char} {l : List Char} :
    NoWS (c :: l) ↔ isWSChar c = false ∧ NoWS l := by
  simp [NoWS]

theorem noWS_append {a b : List Char} : NoWS (a ++ b) ↔ NoWS a ∧ NoWS b := by
  constructor
  · intro h
    exact ⟨fun c hc => h c (List.mem_append_left _ hc),
           fun c hc => h c (List.mem_append_right _ hc)⟩
  · intro h c hc
    rcases List.mem_append.mp hc with h1 | h2
    · exact h.1 c h1
    · exact h.2 c h2

theorem countable_of_not_ws {c : Char} (h : isWSChar c = false) : countable c = true := by
  simp [isWSChar] at h
  simp [countable]
  tauto

theorem strip_of_noWS {l : List Char} (h : NoWS l) : strip l = l := by
  induction l with
  | nil => rfl
  | cons c cs ih =>
    rw [noWS_cons] at h
    rw [strip_cons, if_pos (countable_of_not_ws h.1), ih h.2]

theorem skipWS_of_noWS {l : List Char} (h : NoWS l) : skipWS l = l := by
  cases l with
  | nil => rfl
  | cons c cs =>
    rw [noWS_cons] at h
    simp [skipWS, h.1]

theorem eq_nil_of_skipWS_noWS {l : List Char} (h : NoWS l) (hs : skipWS l = []) :
    l = [] := by
  rw [skipWS_of_noWS h] at hs
  exact hs

/-- The offset-translation walk is exact on the stripped stream: whenever
at least `offset` countable characters remain, the walk lands at a split
point whose stripped prefix and suffix are the stripped document's prefix
and suffix at `offset`. -/
theorem translate_spec (p : List Char) : ∀ offset : Nat, offset ≤ (strip p).length →
    ∃ k, translateOffset p offset = some k ∧
      strip (p.take k) = (strip p).take offset ∧
      strip (p.drop k) = (strip p).drop offset := by
  induction p with
  | nil =>
    intro offset h
    simp [strip] at h
    subst h
    exact ⟨0, by simp [translateOffset], rfl, rfl⟩
  | cons c cs ih =>
    intro offset h
    match offset with
    | 0 => exact ⟨0, by simp [translateOffset], rfl, rfl⟩
    | n + 1 =>
      by_cases hc : countable c = true
      · have hskip : ¬(c = '\n' ∨ c = ' ') := by
          simp [countable] at hc
          tauto
        rw [strip_cons, if_pos hc] at h
        simp at h
        obtain ⟨k, hk, ht, hd⟩ := ih n (by omega)
        refine ⟨k + 1, ?_, ?_, ?_⟩
        · simp [translateOffset, hskip, hk]
        · simp [List.take_succ_cons, strip_cons, hc, ht]
        · simp [List.drop_succ_cons, strip_cons, hc, hd]
      · have hskip : c = '\n' ∨ c = ' ' := by
          simp [countable] at hc
          by_cases h1 : c = '\n'
          · exact Or.inl h1
          · exact Or.inr (hc h1)
        have hs : strip (c :: cs) = strip cs := by
          rw [strip_cons, if_neg hc]
        rw [hs] at h
        obtain ⟨k, hk, ht, hd⟩ := ih (n + 1) h
        refine ⟨k + 1, ?_, ?_, ?_⟩
        · simp [translateOffset, hskip, hk]
        · rw [List.take_succ_cons, strip_cons, if_neg hc, ht, hs]
        · rw [List.drop_succ_cons, hd, hs]

/-! Reconstruction lemmas: each scanner returns exactly a decomposition of
its input. -/
theorem lexStr_reconstruct : ∀ (l raw rest : List Char),
    lexStr l = some (raw, rest) → raw ++ '"' :: rest = l := by
  intro l
  induction l using lexStr.induct with
  | case1 =>
    intro raw rest h
    rw [lexStr.eq_def] at h
    simp at h
  | case2 cs =>
    intro raw rest h
    rw [lexStr.eq_def] at h
    simp at h
    rw [h.1, h.2]
    rfl
  | case3 =>
    intro raw rest h
    rw [lexStr.eq_def] at h
    simp at h
  | case4 h1 h2 h3 h4 rest3 hhex _ ih =>
    intro raw rest h
    rw [lexStr.eq_def] at h
    simp [hhex, Option.map_eq_some'] at h
    obtain ⟨raw', hrec, rfl⟩ := h
    simpa using ih raw' rest hrec
  | case5 h1 h2 h3 h4 rest3 hhex _ =>
    intro raw rest h
    rw [lexStr.eq_def] at h
    simp [hhex] at h
  | case6 cs hshape _ =>
    intro raw rest h
    rw [lexStr.eq_def] at h
    rcases cs with _ | ⟨a, _ | ⟨b, _ | ⟨c, _ | ⟨d, e⟩⟩⟩⟩ <;> simp at h
    exact absurd rfl (fun hh => hshape a b c d e hh)
  | case7 c cs hcu hesc _ ih =>
    intro raw rest h
    rw [lexStr.eq_def] at h
    simp [hcu, hesc, Option.map_eq_some'] at h
    obtain ⟨raw', hrec, rfl⟩ := h
    simpa using ih raw' rest hrec
  | case8 c cs hcu hesc _ =>
    intro raw rest h
    rw [lexStr.eq_def] at h
    simp [hcu, hesc] at h
  | case9 c cs hq hb hctl =>
    intro raw rest h
    rw [lexStr.eq_def] at h
    simp [hq, hb, hctl] at h
  | case10 c cs hq hb hctl ih =>
    intro raw rest h
    rw [lexStr.eq_def] at h
    simp [hq, hb, hctl, Option.map_eq_some'] at h
    obtain ⟨raw', hrec, rfl⟩ := h
    simpa using ih raw' rest hrec

theorem spanDigits_reconstruct : ∀ l : List Char, (spanDigits l).1 ++ (spanDigits l).2 = l := by
  intro l
  induction l using spanDigits.induct with
  | case1 => rfl
  | case2 c cs hd ih =>
    simp only [spanDigits, hd, if_true]
    simpa using ih
  | case3 c cs hd =>
    simp [spanDigits, hd]

theorem lexDigits_reconstruct {l d r : List Char} (h : lexDigits l = some (d, r)) :
    d ++ r = l := by
  unfold lexDigits at h
  split at h
  · exact absurd h (by simp)
  · rename_i p hne heq
    rw [Option.some.injEq] at h
    obtain ⟨h1, h2⟩ := Prod.mk.injEq .. ▸ h
    have h3 := spanDigits_reconstruct l
    rw [heq] at h3
    simp only at h3
    rw [← h1, ← h2]
    exact h3

theorem lexIntPart_reconstruct {l d r : List Char} (h : lexIntPart l = some (d, r)) :
    d ++ r = l := by
  match l with
  | [] => simp [lexIntPart] at h
  | c :: cs =>
    have hunf : lexIntPart (c :: cs) =
        (if c = '0' then some (['0'], cs)
         else if c.isDigit then some (c :: (spanDigits cs).1, (spanDigits cs).2)
         else none) := rfl
    rw [hunf] at h
    split at h
    · rename_i h0
      rw [Option.some.injEq] at h
      obtain ⟨h1, h2⟩ := Prod.mk.injEq .. ▸ h
      rw [← h1, ← h2, h0]
      rfl
    · split at h
      · rename_i hd
        rw [Option.some.injEq] at h
        obtain ⟨h1, h2⟩ := Prod.mk.injEq .. ▸ h
        rw [← h1, ← h2]
        simpa using spanDigits_reconstruct cs
      · exact absurd h (by simp)

theorem lexFrac_reconstruct {l d r : List Char} (h : lexFrac l = some (d, r)) :
    d ++ r = l := by
  match l with
  | [] =>
    simp [lexFrac] at h
    rw [h.1, h.2]
    rfl
  | c :: cs =>
    have hunf : lexFrac (c :: cs) =
        (if c = '.' then (lexDigits cs).map (fun p => ('.' :: p.1, p.2))
         else some ([], c :: cs)) := rfl
    rw [hunf] at h
    split at h
    · rename_i hdot
      rw [Option.map_eq_some'] at h
      obtain ⟨⟨d', r'⟩, hrec, heq⟩ := h
      obtain ⟨h1, h2⟩ := Prod.mk.injEq .. ▸ heq
      rw [← h1, ← h2, hdot]
      simpa using lexDigits_reconstruct hrec
    · rw [Option.some.injEq] at h
      obtain ⟨h1, h2⟩ := Prod.mk.injEq .. ▸ h
      rw [← h1, ← h2]
      rfl

theorem lexExp_reconstruct {l d r : List Char} (h : lexExp l = some (d, r)) :
    d ++ r = l := by
  match l with
  | [] =>
    simp [lexExp] at h
    rw [h.1, h.2]
    rfl
  | c :: cs =>
    have hunf : lexExp (c :: cs) =
        (if c = 'e' ∨ c = 'E' then
          match cs with
          | s :: cs2 =>
            if s = '+' ∨ s = '-' then (lexDigits cs2).map (fun p => (c :: s :: p.1, p.2))
            else (lexDigits cs).map (fun p => (c :: p.1, p.2))
          | [] => none
         else some ([], c :: cs)) := rfl
    rw [hunf] at h
    split at h
    · rename_i he
      match cs with
      | [] => exact absurd h (by simp)
      | s :: cs2 =>
        simp only at h
        split at h
        · rename_i hs
          rw [Option.map_eq_some'] at h
          obtain ⟨⟨d', r'⟩, hrec, heq⟩ := h
          obtain ⟨h1, h2⟩ := Prod.mk.injEq .. ▸ heq
          rw [← h1, ← h2]
          simpa using lexDigits_reconstruct hrec
        · rw [Option.map_eq_some'] at h
          obtain ⟨⟨d', r'⟩, hrec, heq⟩ := h
          obtain ⟨h1, h2⟩ := Prod.mk.injEq .. ▸ heq
          rw [← h1, ← h2]
          simpa using lexDigits_reconstruct hrec
    · rw [Option.some.injEq] at h
      obtain ⟨h1, h2⟩ := Prod.mk.injEq .. ▸ h
      rw [← h1, ← h2]
      rfl

theorem lexNum_reconstruct {l raw r : List Char} (h : lexNum l = some (raw, r)) :
    raw ++ r = l := by
  unfold lexNum at h
  split at h
  · rename_i rtail
    simp only at h
    match hint : lexIntPart rtail with
    | none => rw [hint] at h; exact absurd h (by simp)
    | some (i, l2) =>
      rw [hint] at h
      simp only at h
      match hfrac : lexFrac l2 with
      | none => rw [hfrac] at h; exact absurd h (by simp)
      | some (f, l3) =>
        rw [hfrac] at h
        simp only at h
        match hexp : lexExp l3 with
        | none => rw [hexp] at h; exact absurd h (by simp)
        | some (e, l4) =>
          rw [hexp, Option.some.injEq] at h
          obtain ⟨h1, h2⟩ := Prod.mk.injEq .. ▸ h
          rw [← h1, ← h2]
          have e1 := lexIntPart_reconstruct hint
          have e2 := lexFrac_reconstruct hfrac
          have e3 := lexExp_reconstruct hexp
          simp only [List.cons_append, List.append_assoc, List.nil_append]
          rw [e3, e2, e1]
  · rename_i hnotminus
    simp only at h
    match hint : lexIntPart l with
    | none => rw [hint] at h; exact absurd h (by simp)
    | some (i, l2) =>
      rw [hint] at h
      simp only at h
      match hfrac : lexFrac l2 with
      | none => rw [hfrac] at h; exact absurd h (by simp)
      | some (f, l3) =>
        rw [hfrac] at h
        simp only at h
        match hexp : lexExp l3 with
        | none => rw [hexp] at h; exact absurd h (by simp)
        | some (e, l4) =>
          rw [hexp, Option.some.injEq] at h
          obtain ⟨h1, h2⟩ := Prod.mk.injEq .. ▸ h
          rw [← h1, ← h2]
          have e1 := lexIntPart_reconstruct hint
          have e2 := lexFrac_reconstruct hfrac
          have e3 := lexExp_reconstruct hexp
          simp only [List.nil_append, List.append_assoc]
          rw [e3, e2, e1]

theorem strip_nil : strip [] = [] := rfl

theorem strip_cons_countable {c : Char} (l : List Char) (h : countable c = true) :
    strip (c :: l) = c :: strip l := by
  rw [strip_cons, if_pos h]

theorem strip_cons_skip {c : Char} (l : List Char) (h : countable c = false) :
    strip (c :: l) = strip l := by
  rw [strip_cons, if_neg (by simp [h])]

theorem noWS_split {a b r : List Char} (heq : a ++ b = r) (hr : NoWS r) :
    NoWS a ∧ NoWS b := by
  rw [← heq] at hr
  exact noWS_append.mp hr

theorem strip_wrap {c1 c2 : Char} (a : List Char) (d1 d2 : Nat)
    (hc1 : countable c1 = true) (hc2 : countable c2 = true) :
    strip (c1 :: nlIndent d1 ++ a ++ nlIndent d2 ++ [c2]) = c1 :: strip a ++ [c2] := by
  simp [strip_append, strip_cons, strip_nlIndent, strip_nil, hc1, hc2]

theorem strip_member {raw vout m : List Char} (d : Nat) (hraw : NoWS raw) :
    strip ('"' :: raw ++ '"' :: ':' :: ' ' :: vout ++ ',' :: nlIndent d ++ m)
      = '"' :: raw ++ '"' :: ':' :: strip vout ++ ',' :: strip m := by
  simp [strip_append, strip_cons, strip_nlIndent, strip_nil, strip_of_noWS hraw, countable]

theorem strip_member_last {raw vout : List Char} (hraw : NoWS raw) :
    strip ('"' :: raw ++ '"' :: ':' :: ' ' :: vout)
      = '"' :: raw ++ '"' :: ':' :: strip vout := by
  simp [strip_append, strip_cons, strip_nil, strip_of_noWS hraw, countable]

theorem strip_elem {vout eout : List Char} (d : Nat) :
    strip (vout ++ ',' :: nlIndent d ++ eout) = strip vout ++ ',' :: strip eout := by
  simp [strip_append, strip_cons, strip_nlIndent, strip_nil, countable]

theorem strip_qstr {raw : List Char} (hraw : NoWS raw) :
    strip ('"' :: raw ++ ['"']) = '"' :: raw ++ ['"'] := by
  simp [strip_append, strip_cons, strip_nil, strip_of_noWS hraw, countable]

/-- Re-indenting a whitespace-free document only interleaves newlines and
spaces with the original characters: stripping the output recovers the
consumed input exactly (member/element runs additionally consume the
closing brace/bracket that the parent emits). -/
theorem indent_strip : ∀ fuel : Nat,
    (∀ l depth out rest, NoWS l → indentV fuel l depth = some (out, rest) →
       strip out ++ rest = l) ∧
    (∀ l depth out rest, NoWS l → indentMembers fuel l depth = some (out, rest) →
       strip out ++ '}' :: rest = l) ∧
    (∀ l depth out rest, NoWS l → indentElems fuel l depth = some (out, rest) →
       strip out ++ ']' :: rest = l) := by
  intro fuel
  induction fuel with
  | zero =>
    refine ⟨?_, ?_, ?_⟩ <;>
      (intro l depth out rest _ h; simp [indentV, indentMembers, indentElems] at h)
  | succ fuel ih =>
    obtain ⟨ihV, ihM, ihE⟩ := ih
    refine ⟨?_, ?_, ?_⟩
    · -- indentV
      intro l depth out rest hnw h
      simp only [indentV] at h
      rw [skipWS_of_noWS hnw] at h
      match l with
      | [] => exact absurd h (by simp)
      | c :: r =>
        obtain ⟨hc, hr⟩ := noWS_cons.mp hnw
        simp only at h
        split at h
        · -- object branch
          rename_i hco
          subst hco
          rw [skipWS_of_noWS hr] at h
          split at h
          · rename_i rtail
            rw [Option.some.injEq] at h
            obtain ⟨h1, h2⟩ := Prod.mk.injEq .. ▸ h
            rw [← h1, ← h2]
            rfl
          · split at h
            · exact absurd h (by simp)
            · rename_i hm
              rw [Option.some.injEq] at h
              obtain ⟨h1, h2⟩ := Prod.mk.injEq .. ▸ h
              have hrec := ihM r (depth + 1) _ _ hr hm
              rw [← h1, ← h2, strip_wrap _ _ _ (by decide) (by decide)]
              simp only [List.cons_append, List.append_assoc, List.singleton_append,
                List.nil_append]
              rw [hrec]
        · split at h
          · -- array branch
            rename_i hca
            subst hca
            rw [skipWS_of_noWS hr] at h
            split at h
            · rename_i rtail
              rw [Option.some.injEq] at h
              obtain ⟨h1, h2⟩ := Prod.mk.injEq .. ▸ h
              rw [← h1, ← h2]
              rfl
            · split at h
              · exact absurd h (by simp)
              · rename_i he
                rw [Option.some.injEq] at h
                obtain ⟨h1, h2⟩ := Prod.mk.injEq .. ▸ h
                have hrec := ihE r (depth + 1) _ _ hr he
                rw [← h1, ← h2, strip_wrap _ _ _ (by decide) (by decide)]
                simp only [List.cons_append, List.append_assoc, List.singleton_append,
                  List.nil_append]
                rw [hrec]
          · split at h
            · -- string branch
              rename_i hcq
              subst hcq
              split at h
              · exact absurd h (by simp)
              · rename_i hlex
                rw [Option.some.injEq] at h
                obtain ⟨h1, h2⟩ := Prod.mk.injEq .. ▸ h
                have hrec := lexStr_reconstruct r _ _ hlex
                have hraw : NoWS _ := (noWS_split hrec hr).1
                rw [← h1, ← h2, strip_qstr hraw]
                simp only [List.cons_append, List.append_assoc, List.singleton_append,
                  List.nil_append]
                rw [hrec]
            · split at h
              · -- true literal
                rename_i hct
                subst hct
                split at h
                · rename_i rtail
                  rw [Option.some.injEq] at h
                  obtain ⟨h1, h2⟩ := Prod.mk.injEq .. ▸ h
                  rw [← h1, ← h2]
                  rfl
                · exact absurd h (by simp)
              · split at h
                · -- false literal
                  rename_i hcf
                  subst hcf
                  split at h
                  · rename_i rtail
                    rw [Option.some.injEq] at h
                    obtain ⟨h1, h2⟩ := Prod.mk.injEq .. ▸ h
                    rw [← h1, ← h2]
                    rfl
                  · exact absurd h (by simp)
                · split at h
                  · -- null literal
                    rename_i hcn
                    subst hcn
                    split at h
                    · rename_i rtail
                      rw [Option.some.injEq] at h
                      obtain ⟨h1, h2⟩ := Prod.mk.injEq .. ▸ h
                      rw [← h1, ← h2]
                      rfl
                    · exact absurd h (by simp)
                  · split at h
                    · -- number
                      split at h
                      · exact absurd h (by simp)
                      · rename_i hnum
                        rw [Option.some.injEq] at h
                        obtain ⟨h1, h2⟩ := Prod.mk.injEq .. ▸ h
                        have hrec := lexNum_reconstruct hnum
                        have hraw : NoWS _ := (noWS_split hrec hnw).1
                        rw [← h1, ← h2, strip_of_noWS hraw]
                        exact hrec
                    · exact absurd h (by simp)
    · -- indentMembers
      intro l depth out rest hnw h
      simp only [indentMembers] at h
      match l with
      | [] => exact absurd h (by simp)
      | c :: r =>
        obtain ⟨hc, hr⟩ := noWS_cons.mp hnw
        split at h
        · -- key string
          rename_i ltmp rres heq
          injection heq with hceq hreq
          subst hceq
          subst hreq
          split at h
          · exact absurd h (by simp)
          · rename_i hlex
            have hrec0 := lexStr_reconstruct _ _ _ hlex
            have hraw : NoWS _ := (noWS_split hrec0 hr).1
            have hq2 : NoWS _ := (noWS_split hrec0 hr).2
            rw [noWS_cons] at hq2
            rw [skipWS_of_noWS hq2.2] at h
            split at h
            · -- colon present
              split at h
              · exact absurd h (by simp)
              · rename_i hv
                rename_i r3
                have hr3 : NoWS _ := (noWS_cons.mp hq2.2).2
                have hv' := ihV _ depth _ _ hr3 hv
                have hr4 : NoWS _ := (noWS_split hv' hr3).2
                rw [skipWS_of_noWS hr4] at h
                split at h
                · -- comma: more members follow
                  have hr5 : NoWS _ := (noWS_cons.mp hr4).2
                  rw [skipWS_of_noWS hr5] at h
                  split at h
                  · exact absurd h (by simp)
                  · rename_i hm2
                    rw [Option.some.injEq] at h
                    obtain ⟨h1, h2⟩ := Prod.mk.injEq .. ▸ h
                    have hm2' := ihM _ depth _ _ hr5 hm2
                    rw [← h1, ← h2, strip_member depth hraw]
                    simp only [List.cons_append, List.append_assoc, List.singleton_append,
                      List.nil_append]
                    rw [hm2', hv', hrec0]
                · -- closing brace: last member
                  rw [Option.some.injEq] at h
                  obtain ⟨h1, h2⟩ := Prod.mk.injEq .. ▸ h
                  rw [← h1, ← h2, strip_member_last hraw]
                  simp only [List.cons_append, List.append_assoc, List.singleton_append,
                    List.nil_append]
                  rw [hv', hrec0]
                · exact absurd h (by simp)
            · exact absurd h (by simp)
        · exact absurd h (by simp)
    · -- indentElems
      intro l depth out rest hnw h
      simp only [indentElems] at h
      split at h
      · exact absurd h (by simp)
      · rename_i hv
        have hv' := ihV l depth _ _ hnw hv
        have hr4 : NoWS _ := (noWS_split hv' hnw).2
        rw [skipWS_of_noWS hr4] at h
        split at h
        · -- comma: more elements follow
          rename_i r2
          have hr2 : NoWS _ := (noWS_cons.mp hr4).2
          rw [skipWS_of_noWS hr2] at h
          split at h
          · exact absurd h (by simp)
          · rename_i he2
            rw [Option.some.injEq] at h
            obtain ⟨h1, h2⟩ := Prod.mk.injEq .. ▸ h
            have he2' := ihE _ depth _ _ hr2 he2
            rw [← h1, ← h2, strip_elem depth]
            simp only [List.cons_append, List.append_assoc, List.singleton_append,
              List.nil_append]
            rw [he2', hv']
        · -- close bracket
          rename_i r2
          rw [Option.some.injEq] at h
          obtain ⟨h1, h2⟩ := Prod.mk.injEq .. ▸ h
          rw [← h1, ← h2]
          exact hv'
        · exact absurd h (by simp)

/-- C8: every string the formatter returns has the exact shape
`<errmsg> at offset <N> (indicated by <==)\n <prefix> <== <suffix>`, where
prefix/suffix split the re-indented document at the translated offset, or
the raw document at the raw offset when indenting failed. -/
theorem formatErr_output_format (data errmsg : List Char) (offset : Nat) (out : List Char)
    (h : formatUnmarshallErrorString data errmsg offset = some out) :
    ∃ pre suf,
      out = errmsg ++ " at offset ".data ++ natDigits offset ++
        " (indicated by <==)\n ".data ++ pre ++ " <== ".data ++ suf ∧
      ((∃ p k, jsonIndent data = some p ∧ translateOffset p offset = some k ∧
          pre = p.take k ∧ suf = p.drop k ∧ pre ++ suf = p) ∨
       (jsonIndent data = none ∧ pre = data.take offset ∧ suf = data.drop offset ∧
          pre ++ suf = data)) := by
  unfold formatUnmarshallErrorString at h
  simp only at h
  rcases hj : jsonIndent data with _ | p
  · rw [hj] at h
    simp only at h
    split at h
    · rw [Option.some.injEq] at h
      refine ⟨data.take offset, data.drop offset, ?_,
        Or.inr ⟨rfl, rfl, rfl, List.take_append_drop offset data⟩⟩
      rw [← h]
    · exact absurd h (by simp)
  · rw [hj] at h
    simp only at h
    rcases hk : translateOffset p offset with _ | k
    · rw [hk] at h
      simp at h
    · rw [hk] at h
      simp only at h
      rw [Option.some.injEq] at h
      refine ⟨p.take k, p.drop k, ?_, Or.inl ⟨p, k, rfl, hk, rfl, rfl, List.take_append_drop k p⟩⟩
      rw [← h]

/-- C8 witness: the format theorem applied to a concrete failing document. -/
theorem formatErr_output_format_witness :
    ∃ pre suf,
      "m at offset 1 (indicated by <==)\n x <== ".data = ['m'] ++ " at offset ".data ++
        natDigits 1 ++ " (indicated by <==)\n ".data ++ pre ++ " <== ".data ++ suf ∧
      ((∃ p k, jsonIndent "x".data = some p ∧ translateOffset p 1 = some k ∧
          pre = p.take k ∧ suf = p.drop k ∧ pre ++ suf = p) ∨
       (jsonIndent "x".data = none ∧ pre = "x".data.take 1 ∧ suf = "x".data.drop 1 ∧
          pre ++ suf = "x".data)) :=
  formatErr_output_format "x".data ['m'] 1 "m at offset 1 (indicated by <==)\n x <== ".data
    (by decide)

/-- C3 counterexample: on the in-range offset 3 of the valid document
`{ }` the walk runs off the end of the indented rendering `{}` — the Go
code indexes out of bounds (a panic, modelled as `none`) instead of
returning a marker string, so the claimed universal safety is false. -/
theorem formatErr_panic_cex :
    3 ≤ ('{' :: ' ' :: '}' :: []).length ∧
    jsonIndent ('{' :: ' ' :: '}' :: []) = some ('{' :: '}' :: []) ∧
    translateOffset ('{' :: '}' :: []) 3 = none ∧
    formatUnmarshallErrorString ('{' :: ' ' :: '}' :: []) ['m'] 3 = none := by
  refine ⟨by decide, by decide, by decide, by decide⟩

/-- C3 amended: the formatter never panics and returns a non-empty string
containing the literal `<==` marker, provided that, when the document can
be indented, the offset does not exceed the number of countable
(non-newline, non-space) characters of the indented rendering; the
fallback path (document not indentable) is safe for every offset within
the document length and splices the marker at the raw offset. -/
theorem formatErr_safe_amended (data errmsg : List Char) (offset : Nat)
    (hoff : offset ≤ data.length) :
    (jsonIndent data = none →
      formatUnmarshallErrorString data errmsg offset =
        some (errmsg ++ " at offset ".data ++ natDigits offset ++
          " (indicated by <==)\n ".data ++ data.take offset ++ " <== ".data ++
          data.drop offset) ∧
      ∀ out, formatUnmarshallErrorString data errmsg offset = some out →
        out ≠ [] ∧ ∃ pre suf, out = pre ++ '<' :: '=' :: '=' :: suf) ∧
    (∀ p, jsonIndent data = some p → offset ≤ (strip p).length →
      ∃ out, formatUnmarshallErrorString data errmsg offset = some out ∧
        out ≠ [] ∧ ∃ pre suf, out = pre ++ '<' :: '=' :: '=' :: suf) := by
  have hne : (" at offset".data : List Char) ≠ [] := by decide
  have hsplit : (" (indicated by <==)\n ".data : List Char) =
      " (indicated by ".data ++ '<' :: '=' :: '=' :: ")\n ".data := by decide
  constructor
  · intro hnone
    have hfmt : formatUnmarshallErrorString data errmsg offset =
        some (errmsg ++ " at offset ".data ++ natDigits offset ++
          " (indicated by <==)\n ".data ++ data.take offset ++ " <== ".data ++
          data.drop offset) := by
      unfold formatUnmarshallErrorString
      simp [hnone, hoff, List.append_assoc]
    refine ⟨hfmt, ?_⟩
    intro out hout
    rw [hfmt, Option.some.injEq] at hout
    subst hout
    constructor
    · intro hnil
      rw [List.append_eq_nil] at hnil
      have h2 := hnil.1
      rw [List.append_eq_nil] at h2
      exact absurd h2.2 (by decide)
    · refine ⟨errmsg ++ " at offset ".data ++ natDigits offset ++ " (indicated by ".data,
        ")\n ".data ++ data.take offset ++ " <== ".data ++ data.drop offset, ?_⟩
      rw [hsplit]
      simp [List.append_assoc]
  · intro p hp hlen
    obtain ⟨k, hk, _, _⟩ := translate_spec p offset hlen
    refine ⟨errmsg ++ " at offset ".data ++ natDigits offset ++
      " (indicated by <==)\n ".data ++ p.take k ++ " <== ".data ++ p.drop k, ?_, ?_, ?_⟩
    · unfold formatUnmarshallErrorString
      simp [hp, hk, List.append_assoc]
    · intro hnil
      rw [List.append_eq_nil] at hnil
      have h2 := hnil.1
      rw [List.append_eq_nil] at h2
      exact absurd h2.2 (by decide)
    · refine ⟨errmsg ++ " at offset ".data ++ natDigits offset ++ " (indicated by ".data,
        ")\n ".data ++ p.take k ++ " <== ".data ++ p.drop k, ?_⟩
      rw [hsplit]
      simp [List.append_assoc]

/-- C3 amended witness: the amended safety theorem applied to the
unindentable document `x` at offset 1. -/
theorem formatErr_safe_amended_witness :
    formatUnmarshallErrorString "x".data ['m'] 1 =
      some (['m'] ++ " at offset ".data ++ natDigits 1 ++
        " (indicated by <==)\n ".data ++ "x".data.take 1 ++ " <== ".data ++
        "x".data.drop 1) ∧
    ∀ out, formatUnmarshallErrorString "x".data ['m'] 1 = some out →
      out ≠ [] ∧ ∃ pre suf, out = pre ++ '<' :: '=' :: '=' :: suf :=
  (formatErr_safe_amended "x".data ['m'] 1 (by decide)).1 (by decide)

/-- C2 counterexample: for the valid document `" a"` (a JSON string
containing a space) the re-indented form is identical to the input — the
re-render inserts no whitespace at all — so a translation that skipped
only re-render-introduced whitespace would map offset 2 to 2; the walk
instead skips the document's own space character and yields 3, splicing
the marker one character too far (after `a` instead of before it). -/
theorem formatErr_translate_cex :
    jsonIndent ('"' :: ' ' :: 'a' :: '"' :: []) = some ('"' :: ' ' :: 'a' :: '"' :: []) ∧
    translateOffset ('"' :: ' ' :: 'a' :: '"' :: []) 2 = some 3 ∧
    formatUnmarshallErrorString ('"' :: ' ' :: 'a' :: '"' :: []) ['m'] 2 =
      some (['m'] ++ " at offset ".data ++ natDigits 2 ++ " (indicated by <==)\n ".data ++
        ('"' :: ' ' :: 'a' :: []) ++ " <== ".data ++ ['"']) ∧
    formatUnmarshallErrorString ('"' :: ' ' :: 'a' :: '"' :: []) ['m'] 2 ≠
      some (['m'] ++ " at offset ".data ++ natDigits 2 ++ " (indicated by <==)\n ".data ++
        ('"' :: ' ' :: []) ++ " <== ".data ++ ('a' :: '"' :: [])) := by
  refine ⟨by decide, by decide, by decide, by decide⟩

/-- C2 amended: for whitespace-free documents (no spaces, tabs, newlines
or carriage returns anywhere, in particular none inside string literals)
that re-indent successfully, the walk lands at a split point of the
pretty string whose prefix and suffix consist of exactly the original
document's prefix and suffix at the given offset, plus inserted newlines
and indentation spaces; the formatter splices the marker there. -/
theorem formatErr_translate_amended (data errmsg : List Char) (offset : Nat) (p : List Char)
    (hnw : NoWS data) (hp : jsonIndent data = some p) (hoff : offset ≤ data.length) :
    strip p = data ∧
    ∃ k, translateOffset p offset = some k ∧
      strip (p.take k) = data.take offset ∧
      strip (p.drop k) = data.drop offset ∧
      formatUnmarshallErrorString data errmsg offset =
        some (errmsg ++ " at offset ".data ++ natDigits offset ++
          " (indicated by <==)\n ".data ++ p.take k ++ " <== ".data ++ p.drop k) := by
  have hstrip : strip p = data := by
    unfold jsonIndent at hp
    rcases hi : indentV (data.length + 1) data 0 with _ | ⟨out0, rest0⟩
    · rw [hi] at hp
      simp at hp
    · rw [hi] at hp
      simp only at hp
      split at hp
      · rename_i hskip
        rw [Option.some.injEq] at hp
        have hs := (indent_strip (data.length + 1)).1 data 0 out0 rest0 hnw hi
        have hr0 : NoWS rest0 := (noWS_split hs hnw).2
        have hnil : rest0 = [] := eq_nil_of_skipWS_noWS hr0 hskip
        subst hnil
        rw [List.append_nil] at hs
        rw [← hp]
        exact hs
      · exact absurd hp (by simp)
  have hlen : offset ≤ (strip p).length := by
    rw [hstrip]
    exact hoff
  obtain ⟨k, hk, ht, hd⟩ := translate_spec p offset hlen
  refine ⟨hstrip, k, hk, ?_, ?_, ?_⟩
  · rw [ht, hstrip]
  · rw [hd, hstrip]
  · unfold formatUnmarshallErrorString
    simp only [hp, hk]

/-- C2 amended witness: the amended translation theorem applied to the
whitespace-free document `[1]` at offset 2. -/
theorem formatErr_translate_amended_witness :
    strip "[\n    1\n]".data = "[1]".data ∧
    ∃ k, translateOffset "[\n    1\n]".data 2 = some k ∧
      strip ("[\n    1\n]".data.take k) = "[1]".data.take 2 ∧
      strip ("[\n    1\n]".data.drop k) = "[1]".data.drop 2 ∧
      formatUnmarshallErrorString "[1]".data ['m'] 2 =
        some (['m'] ++ " at offset ".data ++ natDigits 2 ++
          " (indicated by <==)\n ".data ++ "[\n    1\n]".data.take k ++ " <== ".data ++
          "[\n    1\n]".data.drop k) :=
  formatErr_translate_amended "[1]".data ['m'] 2 "[\n    1\n]".data
    (by unfold NoWS; decide) (by decide) (by decide)

theorem lookupKS_insertKS (acc : List (List Char × List (List Char))) (fk k fk' : List Char) :
    lookupKS (insertKS fk k acc) fk' =
      if fk' = fk then some (((lookupKS acc fk).getD []) ++ [k])
      else lookupKS acc fk' := by
  induction acc with
  | nil =>
    by_cases h : fk' = fk
    · simp [insertKS, lookupKS, h]
    · simp [insertKS, lookupKS, h, Ne.symm h]
  | cons e acc ih =>
    obtain ⟨fk0, b0⟩ := e
    by_cases h0 : fk0 = fk
    · subst h0
      by_cases h : fk' = fk0
      · subst h
        simp [insertKS, lookupKS]
      · simp [insertKS, lookupKS, h, Ne.symm h]
    · by_cases h : fk' = fk0
      · subst h
        simp [insertKS, lookupKS, h0]
      · simp [insertKS, lookupKS, h0, h, Ne.symm h, ih]

theorem fst_insertKS (acc : List (List Char × List (List Char))) (fk k : List Char) :
    (insertKS fk k acc).map Prod.fst =
      if fk ∈ acc.map Prod.fst then acc.map Prod.fst
      else acc.map Prod.fst ++ [fk] := by
  induction acc with
  | nil => simp [insertKS]
  | cons e acc ih =>
    obtain ⟨fk0, b0⟩ := e
    by_cases h0 : fk0 = fk
    · subst h0
      simp [insertKS]
    · have h1 : ¬fk = fk0 := fun hh => h0 hh.symm
      by_cases h : fk ∈ acc.map Prod.fst
      · simp [insertKS, h0, ih, h, h1]
      · simp [insertKS, h0, ih, h, h1]

theorem nodup_insertKS (acc : List (List Char × List (List Char))) (fk k : List Char)
    (h : (acc.map Prod.fst).Nodup) : ((insertKS fk k acc).map Prod.fst).Nodup := by
  rw [fst_insertKS]
  by_cases hm : fk ∈ acc.map Prod.fst
  · simp [hm, h]
  · simp [hm, h, List.Nodup.append, List.nodup_append]

theorem nodup_buildKeySets (bm : List (List Char × JValue)) :
    ∀ acc, (acc.map Prod.fst).Nodup → ((buildKeySets bm acc).map Prod.fst).Nodup := by
  induction bm with
  | nil => intro acc h; exact h
  | cons e bm ih =>
    obtain ⟨k, v⟩ := e
    intro acc h
    exact ih _ (nodup_insertKS acc (fold k) k h)

theorem mem_iff_lookupKS (acc : List (List Char × List (List Char)))
    (hnd : (acc.map Prod.fst).Nodup) (fk : List Char) (b : List (List Char)) :
    (fk, b) ∈ acc ↔ lookupKS acc fk = some b := by
  induction acc with
  | nil => simp [lookupKS]
  | cons e acc ih =>
    obtain ⟨fk0, b0⟩ := e
    simp only [List.map_cons, List.nodup_cons] at hnd
    by_cases h : fk0 = fk
    · subst h
      constructor
      · intro hh
        rcases List.mem_cons.mp hh with heq | hmem
        · obtain ⟨_, hb⟩ := Prod.mk.injEq .. ▸ heq
          simp [lookupKS, hb]
        · exact absurd (List.mem_map_of_mem Prod.fst hmem) hnd.1
      · intro hh
        have hx : lookupKS ((fk0, b0) :: acc) fk0 = some b0 := by simp [lookupKS]
        rw [hx, Option.some.injEq] at hh
        rw [← hh]
        exact List.mem_cons_self _ _
    · have h1 : ¬fk = fk0 := fun hh => h hh.symm
      have hx : lookupKS ((fk0, b0) :: acc) fk = lookupKS acc fk := by
        simp [lookupKS, h]
      rw [hx, ← ih hnd.2]
      simp [List.mem_cons, Prod.mk.injEq, h1]

theorem lookupKS_buildKeySets (bm : List (List Char × JValue)) :
    ∀ (acc : List (List Char × List (List Char))) (fk : List Char),
    lookupKS (buildKeySets bm acc) fk =
      match lookupKS acc fk with
      | some b => some (b ++ (bm.map Prod.fst).filter (fun k => fold k = fk))
      | none =>
        if ((bm.map Prod.fst).filter (fun k => fold k = fk)) = [] then none
        else some ((bm.map Prod.fst).filter (fun k => fold k = fk)) := by
  induction bm with
  | nil =>
    intro acc fk
    match h : lookupKS acc fk with
    | some b => simp [buildKeySets, h]
    | none => simp [buildKeySets, h]
  | cons e bm ih =>
    obtain ⟨k, v⟩ := e
    intro acc fk
    show lookupKS (buildKeySets bm (insertKS (fold k) k acc)) fk = _
    rw [ih (insertKS (fold k) k acc) fk, lookupKS_insertKS]
    by_cases hf : fk = fold k
    · rw [if_pos hf]
      subst hf
      have hfilter : ((k :: bm.map Prod.fst).filter (fun k' => fold k' = fold k)) =
          k :: (bm.map Prod.fst).filter (fun k' => fold k' = fold k) := by
        simp [List.filter_cons]
      match h : lookupKS acc (fold k) with
      | some b =>
        simp only [List.map_cons, hfilter, h, Option.getD_some]
        simp [List.append_assoc]
      | none =>
        simp only [List.map_cons, hfilter, h, Option.getD_none]
        simp
    · rw [if_neg hf]
      have hfilter : ((k :: bm.map Prod.fst).filter (fun k' => fold k' = fk)) =
          (bm.map Prod.fst).filter (fun k' => fold k' = fk) := by
        have : ¬fold k = fk := fun hh => hf hh.symm
        simp [List.filter_cons, this]
      simp only [List.map_cons, hfilter]

theorem mem_insertSortedKey (k x : List Char) (l : List (List Char)) :
    x ∈ insertSortedKey k l ↔ x = k ∨ x ∈ l := by
  induction l with
  | nil => simp [insertSortedKey]
  | cons h t ih =>
    by_cases hlt : ltKey k h
    · simp [insertSortedKey, hlt]
    · simp [insertSortedKey, hlt, ih]
      tauto

theorem mem_sortKeys (x : List Char) (l : List (List Char)) :
    x ∈ sortKeys l ↔ x ∈ l := by
  induction l with
  | nil => simp [sortKeys]
  | cons h t ih =>
    show x ∈ insertSortedKey h (sortKeys t) ↔ _
    rw [mem_insertSortedKey]
    simp [ih]

theorem two_le_length_of_mem_ne {α : Type} {a b : α} {l : List α}
    (ha : a ∈ l) (hb : b ∈ l) (hne : a ≠ b) : 2 ≤ l.length := by
  induction l with
  | nil => simp at ha
  | cons x t ih =>
    rcases List.mem_cons.mp ha with rfl | ha'
    · rcases List.mem_cons.mp hb with rfl | hb'
      · exact absurd rfl hne
      · have := List.length_pos_of_mem hb'
        simp only [List.length_cons]
        omega
    · have := List.length_pos_of_mem ha'
      simp only [List.length_cons]
      omega

/-- C1: decoding a JSON object in which two distinct original keys
case-fold to the same folded form fails, leaving the receiver unchanged,
with one aggregate duplicate-keys error whose entries are exactly the
ambiguous folded keys (every fold-bucket with two or more distinct
original keys, not just the first), each carrying the full set of
colliding original keys. -/
theorem unmarshal_dupKeys_aggregate (blob : List Char) (bm : List (List Char × JValue))
    (hparse : parseDoc blob = some (.jobj bm))
    (k1 k2 : List Char) (v1 v2 : JValue)
    (h1 : (k1, v1) ∈ bm) (h2 : (k2, v2) ∈ bm) (hne : k1 ≠ k2) (hfold : fold k1 = fold k2) :
    ∀ m : Meta, ∃ ds, unmarshalMeta blob m = (m, some (.dupKeys ds)) ∧ ds ≠ [] ∧
      (∀ fk, (∃ ks, (fk, ks) ∈ ds) ↔
        2 ≤ ((bm.map Prod.fst).filter (fun k => fold k = fk)).length) ∧
      (∀ fk ks, (fk, ks) ∈ ds → ∀ k, k ∈ ks ↔ (k ∈ bm.map Prod.fst ∧ fold k = fk)) := by
  intro m
  have hnd : ((buildKeySets bm []).map Prod.fst).Nodup :=
    nodup_buildKeySets bm [] (by simp)
  have hlook : ∀ fk, lookupKS (buildKeySets bm []) fk =
      (if ((bm.map Prod.fst).filter (fun k => fold k = fk)) = [] then none
       else some ((bm.map Prod.fst).filter (fun k => fold k = fk))) := by
    intro fk
    have h := lookupKS_buildKeySets bm [] fk
    rw [show lookupKS [] fk = none from rfl] at h
    simp only at h
    exact h
  have hmem : ∀ fk b, (fk, b) ∈ buildKeySets bm [] ↔
      (b = (bm.map Prod.fst).filter (fun k => fold k = fk) ∧ b ≠ []) := by
    intro fk b
    rw [mem_iff_lookupKS _ hnd, hlook]
    by_cases hf : ((bm.map Prod.fst).filter (fun k => fold k = fk)) = []
    · rw [if_pos hf]
      simp only [hf]
      constructor
      · intro hh
        exact absurd hh (by simp)
      · intro hh
        exact absurd hh.1 hh.2
    · rw [if_neg hf]
      constructor
      · intro hh
        rw [Option.some.injEq] at hh
        refine ⟨hh.symm, ?_⟩
        rw [hh] at hf
        exact hf
      · intro hh
        rw [hh.1]
  have hdmem : ∀ fk ks, (fk, ks) ∈ dupKeyErrs bm ↔
      ∃ b, (fk, b) ∈ buildKeySets bm [] ∧ b.length ≠ 1 ∧ ks = sortKeys b := by
    intro fk ks
    unfold dupKeyErrs
    simp only [List.mem_map, List.mem_filter]
    constructor
    · rintro ⟨⟨fk0, b0⟩, ⟨hm0, hl0⟩, heq⟩
      obtain ⟨hf1, hf2⟩ := Prod.mk.injEq .. ▸ heq
      subst hf1
      exact ⟨b0, hm0, by simpa using hl0, hf2.symm⟩
    · rintro ⟨b, hm0, hl0, rfl⟩
      exact ⟨(fk, b), ⟨hm0, by simpa using hl0⟩, rfl⟩
  have hk1 : k1 ∈ bm.map Prod.fst := List.mem_map_of_mem Prod.fst h1
  have hk2 : k2 ∈ bm.map Prod.fst := List.mem_map_of_mem Prod.fst h2
  have hb2 : 2 ≤ ((bm.map Prod.fst).filter (fun k => fold k = fold k1)).length := by
    apply two_le_length_of_mem_ne (a := k1) (b := k2) _ _ hne
    · simp [List.mem_filter, hk1]
    · simp [List.mem_filter, hk2, hfold]
  have hdne : dupKeyErrs bm ≠ [] := by
    intro hnil
    have : (fold k1, sortKeys ((bm.map Prod.fst).filter (fun k => fold k = fold k1))) ∈ dupKeyErrs bm := by
      rw [hdmem]
      refine ⟨_, hmem _ _ |>.mpr ⟨rfl, ?_⟩, by omega, rfl⟩
      intro hh
      rw [hh] at hb2
      simp at hb2
    rw [hnil] at this
    simp at this
  have hext : extractUniqueMetaKeys bm m = (m, some (.dupKeys (dupKeyErrs bm))) := by
    unfold extractUniqueMetaKeys
    rw [if_neg hdne]
  have hun : unmarshalMeta blob m = (m, some (.dupKeys (dupKeyErrs bm))) := by
    unfold unmarshalMeta
    rw [hparse]
    simp only [hext]
  refine ⟨dupKeyErrs bm, hun, hdne, ?_, ?_⟩
  · intro fk
    constructor
    · rintro ⟨ks, hks⟩
      rw [hdmem] at hks
      obtain ⟨b, hbm, hbl, _⟩ := hks
      obtain ⟨hbf, hbne⟩ := (hmem _ _).mp hbm
      subst hbf
      have h0 : ((bm.map Prod.fst).filter (fun k => fold k = fk)).length ≠ 0 :=
        fun hh => hbne (List.eq_nil_of_length_eq_zero hh)
      omega
    · intro hge
      have hfne : (bm.map Prod.fst).filter (fun k => fold k = fk) ≠ [] := by
        intro hh
        rw [hh] at hge
        simp at hge
      have hl1 : ((bm.map Prod.fst).filter (fun k => fold k = fk)).length ≠ 1 := by omega
      exact ⟨sortKeys ((bm.map Prod.fst).filter (fun k => fold k = fk)),
        (hdmem _ _).mpr ⟨_, (hmem _ _).mpr ⟨rfl, hfne⟩, hl1, rfl⟩⟩
  · intro fk ks hks k
    rw [hdmem] at hks
    obtain ⟨b, hbm, _, rfl⟩ := hks
    obtain ⟨hbf, _⟩ := (hmem _ _).mp hbm
    subst hbf
    rw [mem_sortKeys]
    constructor
    · intro hk
      rw [List.mem_filter] at hk
      exact ⟨hk.1, by simpa using hk.2⟩
    · intro hk
      rw [List.mem_filter]
      exact ⟨hk.1, by simpa using hk.2⟩

/-- C1 witness: the aggregate duplicate-key theorem applied to the decoded
object of the document with keys `schema` and `Schema`. -/
theorem unmarshal_dupKeys_aggregate_witness :
    ∃ ds, unmarshalMeta "\x7b\"schema\":\"a\",\"Schema\":\"b\"\x7d".data emptyMeta =
        (emptyMeta, some (.dupKeys ds)) ∧ ds ≠ [] ∧
      (∀ fk, (∃ ks, (fk, ks) ∈ ds) ↔
        2 ≤ ((([("Schema".data, JValue.jstr "b".data),
          ("schema".data, JValue.jstr "a".data)].map Prod.fst).filter
            (fun k => fold k = fk)).length)) ∧
      (∀ fk ks, (fk, ks) ∈ ds → ∀ k, k ∈ ks ↔
        (k ∈ [("Schema".data, JValue.jstr "b".data),
          ("schema".data, JValue.jstr "a".data)].map Prod.fst ∧ fold k = fk)) :=
  unmarshal_dupKeys_aggregate "\x7b\"schema\":\"a\",\"Schema\":\"b\"\x7d".data
    [("Schema".data, .jstr "b".data), ("schema".data, .jstr "a".data)]
    (by rfl) "Schema".data "schema".data (.jstr "b".data) (.jstr "a".data)
    (by simp) (by simp) (by decide) (by decide) emptyMeta

/-- C7: `Meta.MarshalJSON` returns exactly the stored payload bytes and a
nil error, recomputing nothing. -/
theorem marshal_returns_blob (m : Meta) : marshalMeta m = (m.Blob, none) := rfl

theorem setField_blob (f : MetaField) (s : List Char) (m : Meta) :
    (setField f s m).Blob = m.Blob := by
  cases f <;> rfl

theorem extractLoop_blob : ∀ (fields : List (List Char × MetaField)) ks bm (m : Meta),
    ((extractLoop fields ks bm m).1).Blob = m.Blob := by
  intro fields
  induction fields with
  | nil => intro ks bm m; rfl
  | cons e fields ih =>
    obtain ⟨fk, f⟩ := e
    intro ks bm m
    show (extractLoop ((fk, f) :: fields) ks bm m).1.Blob = m.Blob
    unfold extractLoop
    match h : lookupKS ks fk with
    | none =>
      simp only
      exact ih ks bm m
    | some [] =>
      simp only
      exact ih ks bm m
    | some (key :: rest) =>
      simp only
      match h2 : lookupBM bm key with
      | none =>
        simp only
        exact ih ks bm m
      | some (.jstr s) =>
        simp only
        rw [ih ks bm (setField f s m), setField_blob]
      | some .jnull => rfl
      | some (.jbool b) => rfl
      | some (.jnum n) => rfl
      | some (.jarr xs) => rfl
      | some (.jobj fs) => rfl

/-- Any error out of the extraction loop is a type-mismatch naming an
original key whose value in the object really is not a string. -/
theorem extractLoop_err : ∀ (fields : List (List Char × MetaField)) ks bm (m m' : Meta) e,
    extractLoop fields ks bm m = (m', some e) →
    ∃ k v, e = .typeMismatch k v ∧ lookupBM bm k = some v ∧ (∀ s, v ≠ .jstr s) := by
  intro fields
  induction fields with
  | nil =>
    intro ks bm m m' e h
    exact absurd (congrArg Prod.snd h) (by simp [extractLoop])
  | cons p fields ih =>
    obtain ⟨fk, f⟩ := p
    intro ks bm m m' e h
    unfold extractLoop at h
    match hks : lookupKS ks fk with
    | none =>
      rw [hks] at h
      simp only at h
      exact ih ks bm m m' e h
    | some [] =>
      rw [hks] at h
      simp only at h
      exact ih ks bm m m' e h
    | some (key :: rest) =>
      rw [hks] at h
      simp only at h
      match h2 : lookupBM bm key with
      | none =>
        rw [h2] at h
        simp only at h
        exact ih ks bm m m' e h
      | some (.jstr s) =>
        rw [h2] at h
        simp only at h
        exact ih ks bm _ m' e h
      | some .jnull =>
        rw [h2] at h
        simp only at h
        obtain ⟨h1, h3⟩ := Prod.mk.injEq .. ▸ h
        rw [Option.some.injEq] at h3
        exact ⟨key, .jnull, h3.symm, h2, by intro s hh; cases hh⟩
      | some (.jbool b) =>
        rw [h2] at h
        simp only at h
        obtain ⟨h1, h3⟩ := Prod.mk.injEq .. ▸ h
        rw [Option.some.injEq] at h3
        exact ⟨key, .jbool b, h3.symm, h2, by intro s hh; cases hh⟩
      | some (.jnum n) =>
        rw [h2] at h
        simp only at h
        obtain ⟨h1, h3⟩ := Prod.mk.injEq .. ▸ h
        rw [Option.some.injEq] at h3
        exact ⟨key, .jnum n, h3.symm, h2, by intro s hh; cases hh⟩
      | some (.jarr xs) =>
        rw [h2] at h
        simp only at h
        obtain ⟨h1, h3⟩ := Prod.mk.injEq .. ▸ h
        rw [Option.some.injEq] at h3
        exact ⟨key, .jarr xs, h3.symm, h2, by intro s hh; cases hh⟩
      | some (.jobj fs) =>
        rw [h2] at h
        simp only at h
        obtain ⟨h1, h3⟩ := Prod.mk.injEq .. ▸ h
        rw [Option.some.injEq] at h3
        exact ⟨key, .jobj fs, h3.symm, h2, by intro s hh; cases hh⟩

/-- C9 counterexample: decoding `\x7b"name":5,"schema":"x"\x7d` fails with
a type-mismatch on `name`, yet the receiver's `Schema` field has already
been overwritten — the failed decode does not leave the `Meta` value
completely unchanged. -/
theorem unmarshal_partial_mutation_cex :
    unmarshalMeta "\x7b\"name\":5,\"schema\":\"x\"\x7d".data emptyMeta =
      ({ Schema := "x".data, Package := [], Name := [], Blob := [] },
        some (.typeMismatch "name".data (.jnum 5))) ∧
    ({ Schema := "x".data, Package := [], Name := [], Blob := [] } : Meta) ≠ emptyMeta := by
  constructor
  · rfl
  · decide

/-- C9 amended: a failed decode never sets the payload, and parse
failures, non-object documents and duplicate-key ambiguities leave the
receiver completely unchanged; only a type-mismatch failure can leave
identity fields that were extracted before the offending key populated. -/
theorem unmarshal_fail_partial_amended (blob : List Char) (m m' : Meta) (e : MetaErr)
    (h : unmarshalMeta blob m = (m', some e)) :
    m'.Blob = m.Blob ∧
    (e = .syntaxErr → m' = m) ∧
    (e = .notObject → m' = m) ∧
    (∀ ds, e = .dupKeys ds → m' = m) ∧
    (∀ k v, e = .typeMismatch k v →
      ∃ bm, parseDoc blob = some (.jobj bm) ∧ lookupBM bm k = some v ∧
        (∀ s, v ≠ .jstr s)) := by
  unfold unmarshalMeta at h
  match hp : parseDoc blob with
  | none =>
    rw [hp] at h
    simp only at h
    obtain ⟨h1, h2⟩ := Prod.mk.injEq .. ▸ h
    rw [Option.some.injEq] at h2
    exact ⟨(by rw [← h1]), fun _ => h1.symm, (by intro hh; rw [← h2] at hh; cases hh),
      (by intro ds hh; rw [← h2] at hh; cases hh),
      (by intro k v hh; rw [← h2] at hh; cases hh)⟩
  | some (.jobj bm) =>
    rw [hp] at h
    simp only at h
    unfold extractUniqueMetaKeys at h
    by_cases hd : dupKeyErrs bm = []
    · rw [if_pos hd] at h
      match hl : extractLoop metaFields (buildKeySets bm []) bm m with
      | (m2, none) => rw [hl] at h; simp at h
      | (m2, some e2) =>
        rw [hl] at h
        simp only at h
        obtain ⟨h1, h2⟩ := Prod.mk.injEq .. ▸ h
        rw [Option.some.injEq] at h2
        obtain ⟨k, v, he, hlk, hnst⟩ := extractLoop_err _ _ _ _ _ _ hl
        subst he
        refine ⟨?_, ?_, ?_, ?_, ?_⟩
        · rw [← h1]
          have := extractLoop_blob metaFields (buildKeySets bm []) bm m
          rw [hl] at this
          exact this
        · intro hh; rw [← h2] at hh; cases hh
        · intro hh; rw [← h2] at hh; cases hh
        · intro ds hh; rw [← h2] at hh; cases hh
        · intro k' v' hh
          rw [← h2] at hh
          obtain ⟨hk, hv⟩ := MetaErr.typeMismatch.injEq .. ▸ hh.symm
          subst hk
          subst hv
          exact ⟨bm, rfl, hlk, hnst⟩
    · rw [if_neg hd] at h
      obtain ⟨h1, h2⟩ := Prod.mk.injEq .. ▸ h
      rw [Option.some.injEq] at h2
      exact ⟨(by rw [← h1]), (by intro hh; rw [← h2] at hh; cases hh),
        (by intro hh; rw [← h2] at hh; cases hh),
        fun _ _ => h1.symm, (by intro k v hh; rw [← h2] at hh; cases hh)⟩
  | some .jnull =>
    rw [hp] at h
    simp only at h
    obtain ⟨h1, h2⟩ := Prod.mk.injEq .. ▸ h
    rw [Option.some.injEq] at h2
    exact ⟨(by rw [← h1]), (by intro hh; rw [← h2] at hh; cases hh), fun _ => h1.symm,
      (by intro ds hh; rw [← h2] at hh; cases hh),
      (by intro k v hh; rw [← h2] at hh; cases hh)⟩
  | some (.jbool b) =>
    rw [hp] at h
    simp only at h
    obtain ⟨h1, h2⟩ := Prod.mk.injEq .. ▸ h
    rw [Option.some.injEq] at h2
    exact ⟨(by rw [← h1]), (by intro hh; rw [← h2] at hh; cases hh), fun _ => h1.symm,
      (by intro ds hh; rw [← h2] at hh; cases hh),
      (by intro k v hh; rw [← h2] at hh; cases hh)⟩
  | some (.jnum n) =>
    rw [hp] at h
    simp only at h
    obtain ⟨h1, h2⟩ := Prod.mk.injEq .. ▸ h
    rw [Option.some.injEq] at h2
    exact ⟨(by rw [← h1]), (by intro hh; rw [← h2] at hh; cases hh), fun _ => h1.symm,
      (by intro ds hh; rw [← h2] at hh; cases hh),
      (by intro k v hh; rw [← h2] at hh; cases hh)⟩
  | some (.jstr s) =>
    rw [hp] at h
    simp only at h
    obtain ⟨h1, h2⟩ := Prod.mk.injEq .. ▸ h
    rw [Option.some.injEq] at h2
    exact ⟨(by rw [← h1]), (by intro hh; rw [← h2] at hh; cases hh), fun _ => h1.symm,
      (by intro ds hh; rw [← h2] at hh; cases hh),
      (by intro k v hh; rw [← h2] at hh; cases hh)⟩
  | some (.jarr xs) =>
    rw [hp] at h
    simp only at h
    obtain ⟨h1, h2⟩ := Prod.mk.injEq .. ▸ h
    rw [Option.some.injEq] at h2
    exact ⟨(by rw [← h1]), (by intro hh; rw [← h2] at hh; cases hh), fun _ => h1.symm,
      (by intro ds hh; rw [← h2] at hh; cases hh),
      (by intro k v hh; rw [← h2] at hh; cases hh)⟩

/-- C9 amended witness: the amended theorem applied to a syntax-error
input. -/
theorem unmarshal_fail_partial_amended_witness :
    emptyMeta.Blob = emptyMeta.Blob ∧
    (MetaErr.syntaxErr = .syntaxErr → emptyMeta = emptyMeta) ∧
    (MetaErr.syntaxErr = .notObject → emptyMeta = emptyMeta) ∧
    (∀ ds, MetaErr.syntaxErr = .dupKeys ds → emptyMeta = emptyMeta) ∧
    (∀ k v, MetaErr.syntaxErr = .typeMismatch k v →
      ∃ bm, parseDoc "x".data = some (.jobj bm) ∧ lookupBM bm k = some v ∧
        (∀ s, v ≠ .jstr s)) :=
  unmarshal_fail_partial_amended "x".data emptyMeta emptyMeta .syntaxErr (by rfl)

/-- C10: a document that parses to anything other than a JSON object is
rejected with an error and the receiver is left untouched. -/
theorem unmarshal_non_object (blob : List Char) (m : Meta) (v : JValue)
    (hv : parseDoc blob = some v) (hnotobj : ∀ fs, v ≠ .jobj fs) :
    unmarshalMeta blob m = (m, some .notObject) := by
  unfold unmarshalMeta
  rw [hv]
  match v, hnotobj with
  | .jnull, _ => rfl
  | .jbool b, _ => rfl
  | .jnum n, _ => rfl
  | .jstr s, _ => rfl
  | .jarr xs, _ => rfl
  | .jobj fs, hno => exact absurd rfl (hno fs)

/-- C10 witness: decoding the valid non-object document `[1]` fails with
the non-object error and changes nothing. -/
theorem unmarshal_non_object_witness :
    unmarshalMeta "[1]".data emptyMeta = (emptyMeta, some .notObject) :=
  unmarshal_non_object "[1]".data emptyMeta (.jarr [.jnum 1]) (by rfl)
    (fun fs h => JValue.noConfusion h)

theorem char_eq_of_toNat_eq {c d : Char} (h : c.toNat = d.toNat) : c = d := by
  have h1 : Char.ofNat c.toNat = Char.ofNat d.toNat := by rw [h]
  rwa [Char.ofNat_toNat, Char.ofNat_toNat] at h1

theorem ltKey_irrefl : ∀ a : List Char, ltKey a a = false := by
  intro a
  induction a with
  | nil => rfl
  | cons c cs ih => simp [ltKey, ih]

theorem ltKey_cons_iff {c d : Char} {cs ds : List Char} :
    ltKey (c :: cs) (d :: ds) = true ↔
      c.toNat < d.toNat ∨ (c = d ∧ ltKey cs ds = true) := by
  simp [ltKey]

theorem ltKey_trans : ∀ a b c : List Char,
    ltKey a b = true → ltKey b c = true → ltKey a c = true := by
  intro a
  induction a with
  | nil =>
    intro b c hab hbc
    match b, c with
    | [], _ => simp [ltKey] at hab
    | _ :: _, [] => simp [ltKey] at hbc
    | _ :: _, _ :: _ => rfl
  | cons x xs ih =>
    intro b c hab hbc
    match b, c with
    | [], _ => simp [ltKey] at hab
    | _ :: _, [] => simp [ltKey] at hbc
    | y :: ys, z :: zs =>
      rw [ltKey_cons_iff] at hab hbc ⊢
      rcases hab with h1 | ⟨h1, h1t⟩
      · rcases hbc with h2 | ⟨h2, h2t⟩
        · exact Or.inl (by omega)
        · subst h2
          exact Or.inl h1
      · subst h1
        rcases hbc with h2 | ⟨h2, h2t⟩
        · exact Or.inl h2
        · subst h2
          exact Or.inr ⟨rfl, ih ys zs h1t h2t⟩

theorem ltKey_total : ∀ a b : List Char,
    a = b ∨ ltKey a b = true ∨ ltKey b a = true := by
  intro a
  induction a with
  | nil =>
    intro b
    match b with
    | [] => exact Or.inl rfl
    | _ :: _ => exact Or.inr (Or.inl rfl)
  | cons x xs ih =>
    intro b
    match b with
    | [] => exact Or.inr (Or.inr rfl)
    | y :: ys =>
      rcases Nat.lt_trichotomy x.toNat y.toNat with h | h | h
      · exact Or.inr (Or.inl (ltKey_cons_iff.mpr (Or.inl h)))
      · have hxy : x = y := char_eq_of_toNat_eq h
        subst hxy
        rcases ih ys with h2 | h2 | h2
        · exact Or.inl (by rw [h2])
        · exact Or.inr (Or.inl (ltKey_cons_iff.mpr (Or.inr ⟨rfl, h2⟩)))
        · exact Or.inr (Or.inr (ltKey_cons_iff.mpr (Or.inr ⟨rfl, h2⟩)))
      · exact Or.inr (Or.inr (ltKey_cons_iff.mpr (Or.inl h)))

theorem ltKey_asymm {a b : List Char} (h : ltKey a b = true) : ltKey b a = false := by
  by_cases h2 : ltKey b a = true
  · have := ltKey_trans a b a h h2
    rw [ltKey_irrefl] at this
    cases this
  · exact Bool.eq_false_iff.mpr h2

theorem ltKey_ne {a b : List Char} (h : ltKey a b = true) : a ≠ b := by
  intro hh
  subst hh
  rw [ltKey_irrefl] at h
  cases h

theorem gtKey_of_not_lt {a b : List Char} (h1 : ¬ltKey a b = true) (h2 : a ≠ b) :
    ltKey b a = true := by
  rcases ltKey_total a b with h | h | h
  · exact absurd h h2
  · exact absurd h h1
  · exact h

theorem canonicalF_cons_cons {k k' : List Char} {v v' : JValue}
    {fs : List (List Char × JValue)} :
    canonicalF ((k, v) :: (k', v') :: fs) = true ↔
      canonicalV v = true ∧ ltKey k k' = true ∧ canonicalF ((k', v') :: fs) = true := by
  simp [canonicalF, Bool.and_assoc]

theorem canonicalF_cons {k : List Char} {v : JValue} {fs : List (List Char × JValue)} :
    canonicalF ((k, v) :: fs) = true ↔
      canonicalV v = true ∧ canonicalF fs = true ∧
        (∀ p, fs.head? = some p → ltKey k p.1 = true) := by
  match fs with
  | [] => simp [canonicalF]
  | (k', v') :: fs' =>
    rw [canonicalF_cons_cons]
    constructor
    · rintro ⟨h1, h2, h3⟩
      refine ⟨h1, h3, ?_⟩
      intro p hp
      simp only [List.head?_cons, Option.some.injEq] at hp
      rw [← hp]
      exact h2
    · rintro ⟨h1, h2, h3⟩
      exact ⟨h1, h3 (k', v') rfl, h2⟩

theorem canonicalF_lt_all : ∀ (fs : List (List Char × JValue)) (k : List Char) (v : JValue),
    canonicalF ((k, v) :: fs) = true → ∀ p ∈ fs, ltKey k p.1 = true := by
  intro fs
  induction fs with
  | nil =>
    intro k v _ p hp
    simp at hp
  | cons q fs ih =>
    intro k v h p hp
    obtain ⟨k', v'⟩ := q
    rw [canonicalF_cons_cons] at h
    rcases List.mem_cons.mp hp with rfl | hp'
    · exact h.2.1
    · exact ltKey_trans _ _ _ h.2.1 (ih k' v' h.2.2 p hp')

theorem canonicalF_nodup_keys : ∀ fs : List (List Char × JValue),
    canonicalF fs = true → (fs.map Prod.fst).Nodup := by
  intro fs
  induction fs with
  | nil => intro _; simp
  | cons q fs ih =>
    intro h
    obtain ⟨k, v⟩ := q
    simp only [List.map_cons, List.nodup_cons]
    constructor
    · intro hmem
      obtain ⟨p, hp, hpk⟩ := List.mem_map.mp hmem
      have := canonicalF_lt_all fs k v h p hp
      rw [hpk] at this
      rw [ltKey_irrefl] at this
      cases this
    · exact ih (canonicalF_cons.mp h).2.1

theorem insertField_head : ∀ (fs : List (List Char × JValue)) (k : List Char) (v : JValue),
    ∃ p, (insertField k v fs).head? = some p ∧ (p.1 = k ∨ fs.head? = some p) := by
  intro fs k v
  match fs with
  | [] => exact ⟨(k, v), rfl, Or.inl rfl⟩
  | (k', v') :: fs' =>
    unfold insertField
    by_cases h1 : ltKey k k' = true
    · rw [if_pos h1]
      exact ⟨(k, v), rfl, Or.inl rfl⟩
    · rw [if_neg h1]
      by_cases h2 : k = k'
      · rw [if_pos h2]
        exact ⟨(k, v), rfl, Or.inl rfl⟩
      · rw [if_neg h2]
        exact ⟨(k', v'), rfl, Or.inr rfl⟩

theorem insertField_canonical : ∀ (fs : List (List Char × JValue)) (k : List Char) (v : JValue),
    canonicalV v = true → canonicalF fs = true →
    canonicalF (insertField k v fs) = true := by
  intro fs
  induction fs with
  | nil =>
    intro k v hv _
    simpa [insertField, canonicalF] using hv
  | cons q fs ih =>
    intro k v hv hf
    obtain ⟨k', v'⟩ := q
    unfold insertField
    by_cases h1 : ltKey k k' = true
    · rw [if_pos h1, canonicalF_cons_cons]
      exact ⟨hv, h1, hf⟩
    · rw [if_neg h1]
      by_cases h2 : k = k'
      · rw [if_pos h2]
        subst h2
        rw [canonicalF_cons] at hf ⊢
        exact ⟨hv, hf.2.1, hf.2.2⟩
      · rw [if_neg h2]
        have hk'k : ltKey k' k = true := gtKey_of_not_lt h1 h2
        rw [canonicalF_cons] at hf ⊢
        refine ⟨hf.1, ih k v hv hf.2.1, ?_⟩
        intro p hp
        obtain ⟨p0, hp0, hd⟩ := insertField_head fs k v
        rw [hp0, Option.some.injEq] at hp
        subst hp
        rcases hd with hd | hd
        · rw [hd]
          exact hk'k
        · exact hf.2.2 p0 hd

theorem canonicalL_append : ∀ (xs : List JValue) (v : JValue),
    canonicalL (xs ++ [v]) = (canonicalL xs && canonicalV v) := by
  intro xs v
  induction xs with
  | nil => simp [canonicalL]
  | cons x xs ih => simp [canonicalL, ih, Bool.and_assoc]

/-- Every value the parser produces is canonical: all objects in it are
strictly sorted by key with no duplicates (the association-list image of
decoding into Go maps). -/
theorem parse_canonical : ∀ fuel : Nat,
    (∀ l v rest, parseVal fuel l = some (v, rest) → canonicalV v = true) ∧
    (∀ l acc v rest, canonicalF acc = true → parseMembers fuel l acc = some (v, rest) →
      canonicalV v = true) ∧
    (∀ l acc v rest, canonicalL acc = true → parseElems fuel l acc = some (v, rest) →
      canonicalV v = true) := by
  intro fuel
  induction fuel with
  | zero =>
    refine ⟨?_, ?_, ?_⟩ <;> (intro l; intros; simp [parseVal, parseMembers, parseElems] at *)
  | succ fuel ih =>
    obtain ⟨ihV, ihM, ihE⟩ := ih
    refine ⟨?_, ?_, ?_⟩
    · intro l v rest h
      unfold parseVal at h
      match hws : skipWS l with
      | [] =>
        rw [hws] at h
        exact absurd h (by simp)
      | c :: r =>
        rw [hws] at h
        simp only at h
        split at h
        · -- object
          split at h
          · obtain ⟨h1, _⟩ := Prod.mk.injEq .. ▸ (Option.some.injEq .. ▸ h)
            rw [← h1]
            rfl
          · exact ihM _ _ _ _ (by rfl) h
        · split at h
          · -- array
            split at h
            · obtain ⟨h1, _⟩ := Prod.mk.injEq .. ▸ (Option.some.injEq .. ▸ h)
              rw [← h1]
              rfl
            · exact ihE _ _ _ _ (by rfl) h
          · split at h
            · -- string
              split at h
              · exact absurd h (by simp)
              · split at h
                · exact absurd h (by simp)
                · rename_i s hs
                  obtain ⟨h1, _⟩ := Prod.mk.injEq .. ▸ (Option.some.injEq .. ▸ h)
                  rw [← h1]
                  rfl
            · split at h
              · -- true
                split at h
                · obtain ⟨h1, _⟩ := Prod.mk.injEq .. ▸ (Option.some.injEq .. ▸ h)
                  rw [← h1]
                  rfl
                · exact absurd h (by simp)
              · split at h
                · -- false
                  split at h
                  · obtain ⟨h1, _⟩ := Prod.mk.injEq .. ▸ (Option.some.injEq .. ▸ h)
                    rw [← h1]
                    rfl
                  · exact absurd h (by simp)
                · split at h
                  · -- null
                    split at h
                    · obtain ⟨h1, _⟩ := Prod.mk.injEq .. ▸ (Option.some.injEq .. ▸ h)
                      rw [← h1]
                      rfl
                    · exact absurd h (by simp)
                  · split at h
                    · -- number
                      split at h
                      · exact absurd h (by simp)
                      · split at h
                        · exact absurd h (by simp)
                        · obtain ⟨h1, _⟩ := Prod.mk.injEq .. ▸ (Option.some.injEq .. ▸ h)
                          rw [← h1]
                          rfl
                    · exact absurd h (by simp)
    · intro l acc v rest hacc h
      unfold parseMembers at h
      split at h
      · split at h
        · exact absurd h (by simp)
        · split at h
          · exact absurd h (by simp)
          · rename_i k hk
            split at h
            · split at h
              · exact absurd h (by simp)
              · rename_i hv
                split at h
                · exact ihM _ _ _ _
                    (insertField_canonical _ _ _ (ihV _ _ _ hv) hacc) h
                · obtain ⟨h1, _⟩ := Prod.mk.injEq .. ▸ (Option.some.injEq .. ▸ h)
                  rw [← h1]
                  show canonicalF _ = true
                  exact insertField_canonical _ _ _ (ihV _ _ _ hv) hacc
                · exact absurd h (by simp)
            · exact absurd h (by simp)
      · exact absurd h (by simp)
    · intro l acc v rest hacc h
      unfold parseElems at h
      split at h
      · exact absurd h (by simp)
      · rename_i hv
        split at h
        · exact ihE _ _ _ _ (by rw [canonicalL_append, hacc, ihV _ _ _ hv]; rfl) h
        · obtain ⟨h1, _⟩ := Prod.mk.injEq .. ▸ (Option.some.injEq .. ▸ h)
          rw [← h1]
          show canonicalL _ = true
          rw [canonicalL_append, hacc, ihV _ _ _ hv]
          rfl
        · exact absurd h (by simp)

end Declcfg

namespace Declcfg

theorem lookupBM_mem : ∀ (bm : List (List Char × JValue)) (k : List Char) (v : JValue),
    lookupBM bm k = some v → (k, v) ∈ bm := by
  intro bm
  induction bm with
  | nil =>
    intro k v h
    simp [lookupBM] at h
  | cons e bm ih =>
    obtain ⟨k', v'⟩ := e
    intro k v h
    unfold lookupBM at h
    by_cases heq : k' = k
    · rw [if_pos heq] at h
      rw [Option.some.injEq] at h
      subst heq
      rw [← h]
      exact List.mem_cons_self _ _
    · rw [if_neg heq] at h
      exact List.mem_cons_of_mem _ (ih k v h)

/-- If some metaMap entry's bucket starts with a key whose value is not a
string, the extraction loop returns an error. -/
theorem extractLoop_finds : ∀ (fields : List (List Char × MetaField)) ks bm,
    (∃ p : List Char × MetaField, p ∈ fields ∧ ∃ k rest v,
      lookupKS ks p.1 = some (k :: rest) ∧ lookupBM bm k = some v ∧ (∀ s, v ≠ .jstr s)) →
    ∀ m : Meta, ∃ m' e, extractLoop fields ks bm m = (m', some e) := by
  intro fields
  induction fields with
  | nil =>
    rintro ks bm ⟨p, hp, _⟩ m
    simp at hp
  | cons q fields ih =>
    obtain ⟨fk, f⟩ := q
    rintro ks bm ⟨p, hp, k, krest, v, hlks, hlbm, hnstr⟩ m
    rcases List.mem_cons.mp hp with rfl | hptail
    · -- the offending field is this one
      rw [show extractLoop ((fk, f) :: fields) ks bm m =
        (match lookupKS ks fk with
         | none => extractLoop fields ks bm m
         | some bucket =>
           match bucket with
           | [] => extractLoop fields ks bm m
           | key :: _ =>
             match lookupBM bm key with
             | none => extractLoop fields ks bm m
             | some (.jstr s) => extractLoop fields ks bm (setField f s m)
             | some v => (m, some (.typeMismatch key v))) from rfl]
      rw [hlks]
      simp only
      rw [hlbm]
      match v, hnstr with
      | .jnull, _ => exact ⟨m, _, rfl⟩
      | .jbool b, _ => exact ⟨m, _, rfl⟩
      | .jnum n, _ => exact ⟨m, _, rfl⟩
      | .jarr xs, _ => exact ⟨m, _, rfl⟩
      | .jobj fs2, _ => exact ⟨m, _, rfl⟩
      | .jstr s, hns => exact absurd rfl (hns s)
    · -- the offending field is later: whatever this step does, recurse
      have hex : ∃ p : List Char × MetaField, p ∈ fields ∧ ∃ k rest v,
          lookupKS ks p.1 = some (k :: rest) ∧ lookupBM bm k = some v ∧
            (∀ s, v ≠ .jstr s) :=
        ⟨p, hptail, k, krest, v, hlks, hlbm, hnstr⟩
      show ∃ m' e, (match lookupKS ks fk with
         | none => extractLoop fields ks bm m
         | some bucket =>
           match bucket with
           | [] => extractLoop fields ks bm m
           | key :: _ =>
             match lookupBM bm key with
             | none => extractLoop fields ks bm m
             | some (.jstr s) => extractLoop fields ks bm (setField f s m)
             | some v => (m, some (.typeMismatch key v))) = (m', some e)
      match lookupKS ks fk with
      | none => exact ih ks bm hex m
      | some [] => exact ih ks bm hex m
      | some (key :: rest2) =>
        simp only
        match lookupBM bm key with
        | none => exact ih ks bm hex m
        | some (.jstr s) => exact ih ks bm hex (setField f s m)
        | some .jnull => exact ⟨m, _, rfl⟩
        | some (.jbool b) => exact ⟨m, _, rfl⟩
        | some (.jnum n) => exact ⟨m, _, rfl⟩
        | some (.jarr xs) => exact ⟨m, _, rfl⟩
        | some (.jobj fs2) => exact ⟨m, _, rfl⟩

end Declcfg

namespace Declcfg

theorem lookupKS_spec (bm : List (List Char × JValue)) (fk : List Char) :
    lookupKS (buildKeySets bm []) fk =
      (if ((bm.map Prod.fst).filter (fun k => fold k = fk)) = [] then none
       else some ((bm.map Prod.fst).filter (fun k => fold k = fk))) := by
  have h := lookupKS_buildKeySets bm [] fk
  rw [show lookupKS [] fk = none from rfl] at h
  simp only at h
  exact h

theorem memKS_spec (bm : List (List Char × JValue)) (fk : List Char) (b : List (List Char)) :
    (fk, b) ∈ buildKeySets bm [] ↔
      (b = (bm.map Prod.fst).filter (fun k => fold k = fk) ∧ b ≠ []) := by
  rw [mem_iff_lookupKS _ (nodup_buildKeySets bm [] (by simp)), lookupKS_spec]
  by_cases hf : ((bm.map Prod.fst).filter (fun k => fold k = fk)) = []
  · rw [if_pos hf]
    simp only [hf]
    constructor
    · intro hh
      exact absurd hh (by simp)
    · intro hh
      exact absurd hh.1 hh.2
  · rw [if_neg hf]
    constructor
    · intro hh
      rw [Option.some.injEq] at hh
      refine ⟨hh.symm, ?_⟩
      rw [hh] at hf
      exact hf
    · intro hh
      rw [hh.1]

theorem nodup_all_eq_singleton {α : Type} {l : List α} {x : α}
    (hnd : l.Nodup) (hall : ∀ a ∈ l, a = x) (hx : x ∈ l) : l = [x] := by
  match l with
  | [] => simp at hx
  | [a] =>
    rw [hall a (by simp)]
  | a :: b :: t =>
    have ha : a = x := hall a (by simp)
    have hb : b = x := hall b (by simp)
    rw [List.nodup_cons] at hnd
    exact absurd (by rw [ha, hb] : a = b) (fun hh => hnd.1 (by rw [hh]; simp))

/-- C4: if the object has no case-folding collisions and a key folding to
one of the canonical names schema/package/name holds a non-string value,
decode fails with a type-mismatch error that names an offending original
key and carries its actual (non-string) value. -/
theorem unmarshal_type_mismatch (blob : List Char) (bm : List (List Char × JValue))
    (hparse : parseDoc blob = some (.jobj bm))
    (hnocoll : ∀ k1 ∈ bm.map Prod.fst, ∀ k2 ∈ bm.map Prod.fst, fold k1 = fold k2 → k1 = k2)
    (k0 : List Char) (v0 : JValue)
    (hk0 : lookupBM bm k0 = some v0) (hv0 : ∀ s, v0 ≠ .jstr s)
    (hc0 : fold k0 = fold "schema".data ∨ fold k0 = fold "package".data ∨
      fold k0 = fold "name".data) :
    ∀ m, ∃ m' k v, unmarshalMeta blob m = (m', some (.typeMismatch k v)) ∧
      lookupBM bm k = some v ∧ (∀ s, v ≠ .jstr s) := by
  intro m
  have hcan : canonicalF bm = true := by
    unfold parseDoc at hparse
    match hpv : parseVal (blob.length + 1) blob with
    | none =>
      rw [hpv] at hparse
      exact absurd hparse (by simp)
    | some (v, rest) =>
      rw [hpv] at hparse
      simp only at hparse
      split at hparse
      · rw [Option.some.injEq] at hparse
        have hcv := (parse_canonical (blob.length + 1)).1 blob v rest hpv
        rw [hparse] at hcv
        exact hcv
      · exact absurd hparse (by simp)
  have hnd : (bm.map Prod.fst).Nodup := canonicalF_nodup_keys bm hcan
  have hble : ∀ fk, ((bm.map Prod.fst).filter (fun k => fold k = fk)).length ≤ 1 := by
    intro fk
    match hfl : (bm.map Prod.fst).filter (fun k => fold k = fk) with
    | [] => simp
    | [a] => simp
    | a :: b :: t =>
      exfalso
      have hnd2 : (a :: b :: t).Nodup := hfl ▸ hnd.filter _
      have ha : a ∈ (bm.map Prod.fst).filter (fun k => fold k = fk) := by
        rw [hfl]
        simp
      have hb : b ∈ (bm.map Prod.fst).filter (fun k => fold k = fk) := by
        rw [hfl]
        simp
      rw [List.mem_filter] at ha hb
      have hab : a = b := by
        apply hnocoll a ha.1 b hb.1
        have h1 := ha.2
        have h2 := hb.2
        simp at h1 h2
        rw [h1, h2]
      rw [List.nodup_cons] at hnd2
      exact hnd2.1 (by rw [hab]; simp)
  have hdups : dupKeyErrs bm = [] := by
    unfold dupKeyErrs
    rw [List.map_eq_nil_iff, List.filter_eq_nil_iff]
    rintro ⟨fk0, b0⟩ hp
    have hspec := (memKS_spec bm fk0 b0).mp hp
    have hlen1 : b0.length = 1 := by
      have hle := hble fk0
      rw [← hspec.1] at hle
      have hge : 1 ≤ b0.length := by
        match b0, hspec.2 with
        | [], h => exact absurd rfl h
        | x :: t, _ => simp
      omega
    simp [hlen1]
  have hk0mem : k0 ∈ bm.map Prod.fst :=
    List.mem_map_of_mem Prod.fst (lookupBM_mem bm k0 v0 hk0)
  have hbucket : (bm.map Prod.fst).filter (fun k => fold k = fold k0) = [k0] := by
    apply nodup_all_eq_singleton (hnd.filter _)
    · intro a ha
      rw [List.mem_filter] at ha
      exact hnocoll a ha.1 k0 hk0mem (by simpa using ha.2)
    · rw [List.mem_filter]
      exact ⟨hk0mem, by simp⟩
  have hlk : lookupKS (buildKeySets bm []) (fold k0) = some [k0] := by
    rw [lookupKS_spec, hbucket]
    simp
  have hfield : ∃ f, ((fold k0 : List Char), f) ∈ metaFields := by
    rcases hc0 with h | h | h
    · exact ⟨.schema, by rw [h]; simp [metaFields]⟩
    · exact ⟨.pkg, by rw [h]; simp [metaFields]⟩
    · exact ⟨.name, by rw [h]; simp [metaFields]⟩
  obtain ⟨f, hfmem⟩ := hfield
  obtain ⟨m', e, hloop⟩ := extractLoop_finds metaFields (buildKeySets bm []) bm
    ⟨(fold k0, f), hfmem, k0, [], v0, hlk, hk0, hv0⟩ m
  obtain ⟨k, v, he, hlkk, hnstr⟩ := extractLoop_err _ _ _ _ _ _ hloop
  subst he
  refine ⟨m', k, v, ?_, hlkk, hnstr⟩
  unfold unmarshalMeta
  rw [hparse]
  simp only
  unfold extractUniqueMetaKeys
  rw [if_pos hdups, hloop]

/-- C4 witness: the type-mismatch theorem applied to the document whose
`name` key holds the number 5. -/
theorem unmarshal_type_mismatch_witness :
    ∃ m' k v, unmarshalMeta "\x7b\"name\":5,\"schema\":\"x\"\x7d".data emptyMeta =
        (m', some (.typeMismatch k v)) ∧
      lookupBM [("name".data, JValue.jnum 5), ("schema".data, JValue.jstr "x".data)] k =
        some v ∧ (∀ s, v ≠ .jstr s) :=
  unmarshal_type_mismatch "\x7b\"name\":5,\"schema\":\"x\"\x7d".data
    [("name".data, .jnum 5), ("schema".data, .jstr "x".data)] (by rfl)
    (by decide) "name".data (.jnum 5) (by rfl)
    (fun s h => JValue.noConfusion h) (Or.inr (Or.inr (by decide))) emptyMeta

end Declcfg

namespace Declcfg

/-- A continuation on which a JSON number token ends: empty input, or a first
character that cannot extend the number (not a digit, dot, or exponent
marker). -/
def numStop : List Char → Bool
  | [] => true
  | c :: _ => !(c.isDigit || c = '.' || c = 'e' || c = 'E')

theorem numStop_head {c : Char} {t : List Char} (h : numStop (c :: t) = true) :
    c.isDigit = false ∧ c ≠ '.' ∧ c ≠ 'e' ∧ c ≠ 'E' := by
  simp only [numStop, Bool.not_eq_true', Bool.or_eq_false_iff,
    decide_eq_false_iff_not] at h
  exact ⟨h.1.1.1, h.1.1.2, h.1.2, h.2⟩

theorem hexChar_isHex {n : Nat} (h : n < 16) : isHexChar (hexChar n) = true := by
  interval_cases n <;> decide

theorem hexVal_hexChar {n : Nat} (h : n < 16) : hexVal (hexChar n) = n := by
  interval_cases n <;> decide

theorem digitChar_isDigit {n : Nat} (h : n < 10) : (digitChar n).isDigit = true := by
  interval_cases n <;> decide

theorem digitChar_ne_zero {n : Nat} (h0 : 0 < n) (h : n < 10) : digitChar n ≠ '0' := by
  interval_cases n <;> decide

theorem digitChar_toNat {n : Nat} (h : n < 10) : (digitChar n).toNat = 48 + n := by
  interval_cases n <;> decide

theorem natDigitsAux_acc : ∀ (fuel n : Nat) (acc : List Char),
    natDigitsAux fuel n acc = natDigitsAux fuel n [] ++ acc := by
  intro fuel
  induction fuel with
  | zero => intro n acc; rfl
  | succ fuel ih =>
    intro n acc
    unfold natDigitsAux
    by_cases h : n < 10
    · rw [if_pos h, if_pos h]
      rfl
    · rw [if_neg h, if_neg h, ih (n / 10) (digitChar (n % 10) :: acc),
        ih (n / 10) [digitChar (n % 10)]]
      simp

theorem natDigitsAux_shape (fuel n : Nat) (acc : List Char) :
    ∃ c t, natDigitsAux fuel n acc = c :: t := by
  induction fuel generalizing n acc with
  | zero => exact ⟨_, _, rfl⟩
  | succ fuel ih =>
    unfold natDigitsAux
    by_cases h : n < 10
    · rw [if_pos h]
      exact ⟨_, _, rfl⟩
    · rw [if_neg h]
      exact ih _ _

theorem natDigitsAux_all : ∀ (fuel n : Nat) (acc : List Char), n ≤ fuel →
    acc.all Char.isDigit = true → (natDigitsAux fuel n acc).all Char.isDigit = true := by
  intro fuel
  induction fuel with
  | zero =>
    intro n acc hn hacc
    interval_cases n
    simp only [natDigitsAux, List.all_cons, hacc, Bool.and_true]
    decide
  | succ fuel ih =>
    intro n acc hn hacc
    unfold natDigitsAux
    by_cases h : n < 10
    · rw [if_pos h]
      simp only [List.all_cons, hacc, Bool.and_true]
      exact digitChar_isDigit h
    · rw [if_neg h]
      apply ih _ _ (by omega)
      simp only [List.all_cons, hacc, Bool.and_true]
      exact digitChar_isDigit (Nat.mod_lt _ (by norm_num))

theorem natDigitsAux_head_ne_zero : ∀ (fuel n : Nat) (acc : List Char) (c : Char)
    (t : List Char), 0 < n → n ≤ fuel → natDigitsAux fuel n acc = c :: t → c ≠ '0' := by
  intro fuel
  induction fuel with
  | zero =>
    intro n acc c t h0 hn
    omega
  | succ fuel ih =>
    intro n acc c t h0 hn heq
    unfold natDigitsAux at heq
    by_cases h : n < 10
    · rw [if_pos h] at heq
      injection heq with h1 _
      rw [← h1]
      exact digitChar_ne_zero h0 h
    · rw [if_neg h] at heq
      exact ih (n / 10) _ c t (by omega) (by omega) heq

theorem digitsToNatAux_cons (a : Nat) (c : Char) (cs : List Char) :
    digitsToNatAux a (c :: cs) = digitsToNatAux (a * 10 + (c.toNat - 48)) cs := rfl

theorem digitsToNatAux_nil (a : Nat) : digitsToNatAux a [] = a := rfl

theorem digitsToNatAux_append (a : Nat) (l1 l2 : List Char) :
    digitsToNatAux a (l1 ++ l2) = digitsToNatAux (digitsToNatAux a l1) l2 := by
  induction l1 generalizing a with
  | nil => rfl
  | cons c cs ih =>
    rw [List.cons_append, digitsToNatAux_cons, digitsToNatAux_cons]
    exact ih (a * 10 + (c.toNat - 48))

theorem digitsToNat_natDigitsAux : ∀ (fuel n a : Nat), n ≤ fuel →
    digitsToNatAux a (natDigitsAux fuel n []) =
      a * 10 ^ (natDigitsAux fuel n []).length + n := by
  intro fuel
  induction fuel with
  | zero =>
    intro n a hn
    interval_cases n
    rw [show natDigitsAux 0 0 [] = ['0'] from rfl, digitsToNatAux_cons,
      digitsToNatAux_nil, show ('0' : Char).toNat - 48 = 0 from rfl]
    norm_num
  | succ fuel ih =>
    intro n a hn
    unfold natDigitsAux
    by_cases h : n < 10
    · rw [if_pos h]
      rw [digitsToNatAux_cons, digitsToNatAux_nil, digitChar_toNat h]
      simp only [List.length_cons, List.length_nil, pow_succ, pow_zero, one_mul]
      omega
    · rw [if_neg h, natDigitsAux_acc, digitsToNatAux_append,
        ih (n / 10) a (by omega)]
      rw [digitsToNatAux_cons, digitsToNatAux_nil]
      simp only [List.length_append, List.length_cons, List.length_nil]
      rw [digitChar_toNat (Nat.mod_lt _ (by norm_num))]
      have hd : 48 + n % 10 - 48 = n % 10 := by omega
      calc (a * 10 ^ (natDigitsAux fuel (n / 10) []).length + n / 10) * 10 +
            (48 + n % 10 - 48)
          = a * (10 ^ (natDigitsAux fuel (n / 10) []).length * 10) +
            (n / 10 * 10 + n % 10) := by rw [hd]; ring
        _ = a * 10 ^ ((natDigitsAux fuel (n / 10) []).length + (0 + 1)) + n := by
            have h2 : n / 10 * 10 + n % 10 = n := by omega
            rw [h2]
            norm_num [pow_succ]

theorem spanDigits_exact : ∀ (ds rest : List Char), ds.all Char.isDigit = true →
    (∀ c t, rest = c :: t → c.isDigit = false) →
    spanDigits (ds ++ rest) = (ds, rest) := by
  intro ds
  induction ds with
  | nil =>
    intro rest _ hr
    match rest with
    | [] => rfl
    | c :: t =>
      simp only [List.nil_append]
      unfold spanDigits
      rw [hr c t rfl]
      simp
  | cons d ds ih =>
    intro rest hall hr
    simp only [List.all_cons, Bool.and_eq_true] at hall
    simp only [List.cons_append]
    unfold spanDigits
    rw [hall.1]
    simp only [if_true]
    rw [ih rest hall.2 hr]

theorem lexIntPart_natDigits (n : Nat) (rest : List Char) (hstop : numStop rest = true) :
    lexIntPart (natDigits n ++ rest) = some (natDigits n, rest) := by
  match hn : n with
  | 0 =>
    show lexIntPart ('0' :: rest) = some (['0'], rest)
    rfl
  | m + 1 =>
    obtain ⟨c, t, hct⟩ := natDigitsAux_shape (m + 1) (m + 1) []
    have hall := natDigitsAux_all (m + 1) (m + 1) [] (le_refl _) rfl
    rw [show natDigitsAux (m + 1) (m + 1) [] = natDigits (m + 1) from rfl] at hct hall
    have hne0 : c ≠ '0' :=
      natDigitsAux_head_ne_zero (m + 1) (m + 1) [] c t (by omega) (le_refl _) hct
    rw [hct] at hall
    simp only [List.all_cons, Bool.and_eq_true] at hall
    rw [hct, List.cons_append]
    have hunf : lexIntPart (c :: (t ++ rest)) =
        (if c = '0' then some (['0'], t ++ rest)
         else if c.isDigit then
           some (c :: (spanDigits (t ++ rest)).1, (spanDigits (t ++ rest)).2)
         else none) := rfl
    rw [hunf, if_neg hne0, if_pos hall.1]
    have hspan : spanDigits (t ++ rest) = (t, rest) := by
      apply spanDigits_exact t rest hall.2
      intro c' t' hr
      rw [hr] at hstop
      exact (numStop_head hstop).1
    rw [hspan]

theorem lexFrac_stop (rest : List Char) (h : numStop rest = true) :
    lexFrac rest = some ([], rest) := by
  match rest with
  | [] => rfl
  | c :: t =>
    have hc := (numStop_head h).2.1
    have hunf : lexFrac (c :: t) =
        (if c = '.' then (lexDigits t).map (fun p => ('.' :: p.1, p.2))
         else some ([], c :: t)) := rfl
    rw [hunf, if_neg hc]

theorem lexExp_stop (rest : List Char) (h : numStop rest = true) :
    lexExp rest = some ([], rest) := by
  match rest with
  | [] => rfl
  | c :: t =>
    obtain ⟨-, -, he, hE⟩ := numStop_head h
    rw [lexExp.eq_def]
    simp only
    rw [if_neg (by rintro (h1 | h1); exact he h1; exact hE h1)]

end Declcfg

namespace Declcfg

theorem isWSChar_false_of_isDigit {c : Char} (h : c.isDigit = true) :
    isWSChar c = false := by
  cases hw : isWSChar c
  · rfl
  · exfalso
    simp only [isWSChar, Bool.or_eq_true, decide_eq_true_eq] at hw
    rcases hw with ((hc | hc) | hc) | hc <;> (rw [hc] at h; exact absurd h (by decide))

theorem ne_of_isDigit {c : Char} (d : Char) (h : c.isDigit = true)
    (hd : d.isDigit = false) : c ≠ d := by
  intro hq
  rw [hq] at h
  rw [h] at hd
  exact absurd hd (by decide)

theorem natDigits_shape_all (n : Nat) : ∃ c t, natDigits n = c :: t ∧
    c.isDigit = true ∧ t.all Char.isDigit = true := by
  obtain ⟨c, t, hct⟩ := natDigitsAux_shape n n []
  have hall := natDigitsAux_all n n [] (le_refl _) rfl
  rw [show natDigitsAux n n [] = natDigits n from rfl] at hct hall
  rw [hct] at hall
  simp only [List.all_cons, Bool.and_eq_true] at hall
  exact ⟨c, t, hct, hall.1, hall.2⟩

theorem lexNum_natDigits (n : Nat) (rest : List Char) (hstop : numStop rest = true) :
    lexNum (natDigits n ++ rest) = some (natDigits n, rest) := by
  obtain ⟨c, t, hct, hdig, _⟩ := natDigits_shape_all n
  have hcne : c ≠ '-' := ne_of_isDigit '-' hdig (by decide)
  rw [hct, List.cons_append]
  unfold lexNum
  have hm : (match c :: (t ++ rest) with
      | '-' :: r => ((['-'] : List Char), r)
      | _ => (([] : List Char), c :: (t ++ rest))) = ([], c :: (t ++ rest)) := by
    split
    · rename_i r heq
      injection heq with h1 _
      exact absurd h1 hcne
    · rfl
  rw [hm]
  simp only
  rw [← List.cons_append, ← hct, lexIntPart_natDigits n rest hstop]
  simp only
  rw [lexFrac_stop rest hstop]
  simp only
  rw [lexExp_stop rest hstop]
  simp only
  simp

theorem lexNum_encInt (n : Int) (rest : List Char) (hstop : numStop rest = true) :
    lexNum (encInt n ++ rest) = some (encInt n, rest) := by
  match n with
  | .ofNat m =>
    show lexNum (natDigits m ++ rest) = some (natDigits m, rest)
    exact lexNum_natDigits m rest hstop
  | .negSucc m =>
    show lexNum (('-' :: natDigits (m + 1)) ++ rest) =
      some ('-' :: natDigits (m + 1), rest)
    rw [List.cons_append]
    unfold lexNum
    have hm : (match '-' :: (natDigits (m + 1) ++ rest) with
        | '-' :: r => ((['-'] : List Char), r)
        | _ => (([] : List Char), '-' :: (natDigits (m + 1) ++ rest))) =
        (['-'], natDigits (m + 1) ++ rest) := rfl
    rw [hm]
    simp only
    rw [lexIntPart_natDigits (m + 1) rest hstop]
    simp only
    rw [lexFrac_stop rest hstop]
    simp only
    rw [lexExp_stop rest hstop]
    simp only
    simp

theorem rawToInt_natDigits (m : Nat) : rawToInt (natDigits m) = some (m : Int) := by
  obtain ⟨c, t, hct, hdig, hall⟩ := natDigits_shape_all m
  have hcne : c ≠ '-' := ne_of_isDigit '-' hdig (by decide)
  have hval := digitsToNat_natDigitsAux m m 0 (le_refl _)
  rw [show natDigitsAux m m [] = natDigits m from rfl] at hval
  simp only [zero_mul, zero_add] at hval
  rw [hct]
  unfold rawToInt
  have hm : (match c :: t with
      | '-' :: ds =>
        if ds ≠ [] ∧ ds.all Char.isDigit then some (-(digitsToNatAux 0 ds : Int))
        else none
      | ds =>
        if ds ≠ [] ∧ ds.all Char.isDigit then some ((digitsToNatAux 0 ds : Nat) : Int)
        else none) =
      (if (c :: t) ≠ [] ∧ (c :: t).all Char.isDigit then
        some ((digitsToNatAux 0 (c :: t) : Nat) : Int) else none) := by
    split
    · rename_i ds heq
      injection heq with h1 _
      exact absurd h1 hcne
    · rfl
  rw [hm]
  have hcond : (c :: t) ≠ [] ∧ (c :: t).all Char.isDigit = true := by
    refine ⟨by simp, ?_⟩
    simp only [List.all_cons, Bool.and_eq_true]
    exact ⟨hdig, hall⟩
  rw [if_pos hcond, ← hct, hval]

theorem rawToInt_encInt (n : Int) : rawToInt (encInt n) = some n := by
  match n with
  | .ofNat m =>
    show rawToInt (natDigits m) = some (Int.ofNat m)
    exact rawToInt_natDigits m
  | .negSucc m =>
    obtain ⟨c, t, hct, hdig, hall⟩ := natDigits_shape_all (m + 1)
    have hval := digitsToNat_natDigitsAux (m + 1) (m + 1) 0 (le_refl _)
    rw [show natDigitsAux (m + 1) (m + 1) [] = natDigits (m + 1) from rfl] at hval
    simp only [zero_mul, zero_add] at hval
    show rawToInt ('-' :: natDigits (m + 1)) = some (Int.negSucc m)
    have hm : rawToInt ('-' :: natDigits (m + 1)) =
        (if natDigits (m + 1) ≠ [] ∧ (natDigits (m + 1)).all Char.isDigit then
          some (-(digitsToNatAux 0 (natDigits (m + 1)) : Int)) else none) := rfl
    rw [hm]
    have hcond : natDigits (m + 1) ≠ [] ∧ (natDigits (m + 1)).all Char.isDigit = true := by
      constructor
      · rw [hct]
        simp
      · rw [hct]
        simp only [List.all_cons, Bool.and_eq_true]
        exact ⟨hdig, hall⟩
    rw [if_pos hcond, hval]
    rw [Option.some.injEq, Int.negSucc_eq]
    push_cast
    ring

end Declcfg

namespace Declcfg

theorem lexStr_quote (rest : List Char) : lexStr ('"' :: rest) = some ([], rest) := by
  rw [lexStr.eq_def]
  simp

theorem lexStr_simpleEsc (e : Char) (X : List Char) (he : isSimpleEsc e = true)
    (hu : e ≠ 'u') :
    lexStr ('\\' :: e :: X) = (lexStr X).map (fun p => ('\\' :: e :: p.1, p.2)) := by
  rw [lexStr.eq_def]
  simp [he, hu]

theorem lexStr_uEsc (a b d e : Char) (X : List Char)
    (g1 : isHexChar a = true) (g2 : isHexChar b = true) (g3 : isHexChar d = true)
    (g4 : isHexChar e = true) :
    lexStr ('\\' :: 'u' :: a :: b :: d :: e :: X) =
    (lexStr X).map (fun p => ('\\' :: 'u' :: a :: b :: d :: e :: p.1, p.2)) := by
  rw [lexStr.eq_def]
  simp [g1, g2, g3, g4]

theorem lexStr_plain (c : Char) (X : List Char) (n1 : c ≠ '"') (n2 : c ≠ '\\')
    (n3 : ¬c.toNat < 32) :
    lexStr (c :: X) = (lexStr X).map (fun p => (c :: p.1, p.2)) := by
  rw [lexStr.eq_def]
  simp only
  rw [if_neg n1, if_neg n2, if_neg n3]

theorem lexStr_escStr : ∀ (s rest : List Char),
    lexStr (escStr s ++ '"' :: rest) = some (escStr s, rest) := by
  intro s
  induction s with
  | nil =>
    intro rest
    exact lexStr_quote rest
  | cons c cs ih =>
    intro rest
    rw [show escStr (c :: cs) = escChar c ++ escStr cs from rfl, List.append_assoc]
    by_cases h1 : c = '"'
    · have hec : escChar c = ['\\', '"'] := by unfold escChar; rw [if_pos h1]
      rw [hec]
      simp only [List.cons_append, List.nil_append]
      rw [lexStr_simpleEsc '"' _ (by decide) (by decide), ih rest]
      rfl
    · by_cases h2 : c = '\\'
      · have hec : escChar c = ['\\', '\\'] := by
          unfold escChar
          rw [if_neg h1, if_pos h2]
        rw [hec]
        simp only [List.cons_append, List.nil_append]
        rw [lexStr_simpleEsc '\\' _ (by decide) (by decide), ih rest]
        rfl
      · by_cases h3 : c = '\n'
        · have hec : escChar c = ['\\', 'n'] := by
            unfold escChar
            rw [if_neg h1, if_neg h2, if_pos h3]
          rw [hec]
          simp only [List.cons_append, List.nil_append]
          rw [lexStr_simpleEsc 'n' _ (by decide) (by decide), ih rest]
          rfl
        · by_cases h4 : c = '\r'
          · have hec : escChar c = ['\\', 'r'] := by
              unfold escChar
              rw [if_neg h1, if_neg h2, if_neg h3, if_pos h4]
            rw [hec]
            simp only [List.cons_append, List.nil_append]
            rw [lexStr_simpleEsc 'r' _ (by decide) (by decide), ih rest]
            rfl
          · by_cases h5 : c = '\t'
            · have hec : escChar c = ['\\', 't'] := by
                unfold escChar
                rw [if_neg h1, if_neg h2, if_neg h3, if_neg h4, if_pos h5]
              rw [hec]
              simp only [List.cons_append, List.nil_append]
              rw [lexStr_simpleEsc 't' _ (by decide) (by decide), ih rest]
              rfl
            · by_cases h6 : c.toNat < 32
              · have hec : escChar c = ['\\', 'u', '0', '0',
                    hexChar (c.toNat / 16), hexChar (c.toNat % 16)] := by
                  unfold escChar
                  rw [if_neg h1, if_neg h2, if_neg h3, if_neg h4, if_neg h5,
                    if_pos h6]
                rw [hec]
                simp only [List.cons_append, List.nil_append]
                rw [lexStr_uEsc '0' '0' _ _ _ (by decide) (by decide)
                  (hexChar_isHex (by omega : c.toNat / 16 < 16))
                  (hexChar_isHex (by omega : c.toNat % 16 < 16)), ih rest]
                rfl
              · by_cases h7 : c.toNat = 8232 ∨ c.toNat = 8233
                · have hec : escChar c = ['\\', 'u', '2', '0', '2',
                      hexChar (c.toNat % 16)] := by
                    unfold escChar
                    rw [if_neg h1, if_neg h2, if_neg h3, if_neg h4, if_neg h5,
                      if_neg h6, if_pos h7]
                  rw [hec]
                  simp only [List.cons_append, List.nil_append]
                  rw [lexStr_uEsc '2' '0' '2' _ _ (by decide) (by decide)
                    (by decide)
                    (hexChar_isHex (by omega : c.toNat % 16 < 16)), ih rest]
                  rfl
                · have hec : escChar c = [c] := by
                    unfold escChar
                    rw [if_neg h1, if_neg h2, if_neg h3, if_neg h4, if_neg h5,
                      if_neg h6, if_neg h7]
                  rw [hec]
                  simp only [List.cons_append, List.nil_append]
                  rw [lexStr_plain c _ h1 h2 h6, ih rest]
                  rfl

theorem unescapeF_plain (fuel : Nat) (c : Char) (X : List Char) (h2 : c ≠ '\\') :
    unescapeF (fuel + 1) (c :: X) = (unescapeF fuel X).map (fun s2 => c :: s2) := by
  rw [unescapeF.eq_def]
  simp only
  rw [if_neg h2]

theorem unescapeF_escStr : ∀ (fuel : Nat) (s : List Char),
    (escStr s).length < fuel → unescapeF fuel (escStr s) = some s := by
  intro fuel
  induction fuel with
  | zero =>
    intro s h
    omega
  | succ fuel ih =>
    intro s hlen
    match s with
    | [] => rfl
    | c :: cs =>
      have hlen' : (escChar c ++ escStr cs).length < fuel + 1 := hlen
      rw [List.length_append] at hlen'
      rw [show escStr (c :: cs) = escChar c ++ escStr cs from rfl]
      by_cases h1 : c = '"'
      · have hec : escChar c = ['\\', '"'] := by unfold escChar; rw [if_pos h1]
        rw [hec] at hlen' ⊢
        simp only [List.cons_append, List.nil_append]
        simp only [List.length_cons, List.length_nil] at hlen'
        rw [show unescapeF (fuel + 1) ('\\' :: '"' :: escStr cs) =
          (unescapeF fuel (escStr cs)).map (fun s2 => '"' :: s2) from rfl]
        rw [ih cs (by omega), h1]
        rfl
      · by_cases h2 : c = '\\'
        · have hec : escChar c = ['\\', '\\'] := by
            unfold escChar
            rw [if_neg h1, if_pos h2]
          rw [hec] at hlen' ⊢
          simp only [List.cons_append, List.nil_append]
          simp only [List.length_cons, List.length_nil] at hlen'
          rw [show unescapeF (fuel + 1) ('\\' :: '\\' :: escStr cs) =
            (unescapeF fuel (escStr cs)).map (fun s2 => '\\' :: s2) from rfl]
          rw [ih cs (by omega), h2]
          rfl
        · by_cases h3 : c = '\n'
          · have hec : escChar c = ['\\', 'n'] := by
              unfold escChar
              rw [if_neg h1, if_neg h2, if_pos h3]
            rw [hec] at hlen' ⊢
            simp only [List.cons_append, List.nil_append]
            simp only [List.length_cons, List.length_nil] at hlen'
            rw [show unescapeF (fuel + 1) ('\\' :: 'n' :: escStr cs) =
              (unescapeF fuel (escStr cs)).map (fun s2 => '\n' :: s2) from rfl]
            rw [ih cs (by omega), h3]
            rfl
          · by_cases h4 : c = '\r'
            · have hec : escChar c = ['\\', 'r'] := by
                unfold escChar
                rw [if_neg h1, if_neg h2, if_neg h3, if_pos h4]
              rw [hec] at hlen' ⊢
              simp only [List.cons_append, List.nil_append]
              simp only [List.length_cons, List.length_nil] at hlen'
              rw [show unescapeF (fuel + 1) ('\\' :: 'r' :: escStr cs) =
                (unescapeF fuel (escStr cs)).map (fun s2 => '\r' :: s2) from rfl]
              rw [ih cs (by omega), h4]
              rfl
            · by_cases h5 : c = '\t'
              · have hec : escChar c = ['\\', 't'] := by
                  unfold escChar
                  rw [if_neg h1, if_neg h2, if_neg h3, if_neg h4, if_pos h5]
                rw [hec] at hlen' ⊢
                simp only [List.cons_append, List.nil_append]
                simp only [List.length_cons, List.length_nil] at hlen'
                rw [show unescapeF (fuel + 1) ('\\' :: 't' :: escStr cs) =
                  (unescapeF fuel (escStr cs)).map (fun s2 => '\t' :: s2) from rfl]
                rw [ih cs (by omega), h5]
                rfl
              · by_cases h6 : c.toNat < 32
                · have hec : escChar c = ['\\', 'u', '0', '0',
                      hexChar (c.toNat / 16), hexChar (c.toNat % 16)] := by
                    unfold escChar
                    rw [if_neg h1, if_neg h2, if_neg h3, if_neg h4, if_neg h5,
                      if_pos h6]
                  rw [hec] at hlen' ⊢
                  simp only [List.cons_append, List.nil_append]
                  simp only [List.length_cons, List.length_nil] at hlen'
                  rw [show unescapeF (fuel + 1) ('\\' :: 'u' :: '0' :: '0' ::
                      hexChar (c.toNat / 16) :: hexChar (c.toNat % 16) ::
                      escStr cs) =
                    (if isHexChar '0' && isHexChar '0' &&
                        isHexChar (hexChar (c.toNat / 16)) &&
                        isHexChar (hexChar (c.toNat % 16)) then
                      (if 55296 ≤ hexVal4 '0' '0' (hexChar (c.toNat / 16))
                            (hexChar (c.toNat % 16)) ∧
                          hexVal4 '0' '0' (hexChar (c.toNat / 16))
                            (hexChar (c.toNat % 16)) < 57344 then
                        (if hexVal4 '0' '0' (hexChar (c.toNat / 16))
                            (hexChar (c.toNat % 16)) < 56320 then
                          unescapeSurrF fuel (hexVal4 '0' '0'
                            (hexChar (c.toNat / 16)) (hexChar (c.toNat % 16)))
                            (escStr cs)
                        else (unescapeF fuel (escStr cs)).map
                          (fun s2 => Char.ofNat 65533 :: s2))
                      else (unescapeF fuel (escStr cs)).map
                        (fun s2 => Char.ofNat (hexVal4 '0' '0'
                          (hexChar (c.toNat / 16)) (hexChar (c.toNat % 16))) :: s2))
                    else none) from rfl]
                  have hv : hexVal4 '0' '0' (hexChar (c.toNat / 16))
                      (hexChar (c.toNat % 16)) = c.toNat := by
                    unfold hexVal4
                    rw [hexVal_hexChar (by omega : c.toNat / 16 < 16),
                      hexVal_hexChar (by omega : c.toNat % 16 < 16),
                      show hexVal '0' = 0 from rfl]
                    omega
                  rw [hv]
                  have hguard : (isHexChar '0' && isHexChar '0' &&
                      isHexChar (hexChar (c.toNat / 16)) &&
                      isHexChar (hexChar (c.toNat % 16))) = true := by
                    rw [hexChar_isHex (by omega : c.toNat / 16 < 16),
                      hexChar_isHex (by omega : c.toNat % 16 < 16)]
                    decide
                  rw [if_pos hguard,
                    if_neg (by omega : ¬(55296 ≤ c.toNat ∧ c.toNat < 57344)),
                    ih cs (by omega), Option.map_some', Char.ofNat_toNat]
                · by_cases h7 : c.toNat = 8232 ∨ c.toNat = 8233
                  · have hec : escChar c = ['\\', 'u', '2', '0', '2',
                        hexChar (c.toNat % 16)] := by
                      unfold escChar
                      rw [if_neg h1, if_neg h2, if_neg h3, if_neg h4, if_neg h5,
                        if_neg h6, if_pos h7]
                    rw [hec] at hlen' ⊢
                    simp only [List.cons_append, List.nil_append]
                    simp only [List.length_cons, List.length_nil] at hlen'
                    rw [show unescapeF (fuel + 1) ('\\' :: 'u' :: '2' :: '0' ::
                        '2' :: hexChar (c.toNat % 16) :: escStr cs) =
                      (if isHexChar '0' && isHexChar '2' && isHexChar '0' &&
                          isHexChar (hexChar (c.toNat % 16)) then
                        (if 55296 ≤ hexVal4 '2' '0' '2' (hexChar (c.toNat % 16)) ∧
                            hexVal4 '2' '0' '2' (hexChar (c.toNat % 16)) < 57344 then
                          (if hexVal4 '2' '0' '2' (hexChar (c.toNat % 16)) < 56320 then
                            unescapeSurrF fuel
                              (hexVal4 '2' '0' '2' (hexChar (c.toNat % 16)))
                              (escStr cs)
                          else (unescapeF fuel (escStr cs)).map
                            (fun s2 => Char.ofNat 65533 :: s2))
                        else (unescapeF fuel (escStr cs)).map
                          (fun s2 => Char.ofNat
                            (hexVal4 '2' '0' '2' (hexChar (c.toNat % 16))) :: s2))
                      else none) from rfl]
                    have hv : hexVal4 '2' '0' '2' (hexChar (c.toNat % 16)) =
                        c.toNat := by
                      unfold hexVal4
                      rw [hexVal_hexChar (by omega : c.toNat % 16 < 16),
                        show hexVal '2' = 2 from rfl,
                        show hexVal '0' = 0 from rfl]
                      rcases h7 with h7 | h7 <;> rw [h7]
                    rw [hv]
                    have hguard : (isHexChar '0' && isHexChar '2' &&
                        isHexChar '0' &&
                        isHexChar (hexChar (c.toNat % 16))) = true := by
                      rw [hexChar_isHex (by omega : c.toNat % 16 < 16)]
                      decide
                    rw [if_pos hguard,
                      if_neg (by rcases h7 with h7 | h7 <;> omega :
                        ¬(55296 ≤ c.toNat ∧ c.toNat < 57344)),
                      ih cs (by omega), Option.map_some', Char.ofNat_toNat]
                  · have hec : escChar c = [c] := by
                      unfold escChar
                      rw [if_neg h1, if_neg h2, if_neg h3, if_neg h4, if_neg h5,
                        if_neg h6, if_neg h7]
                    rw [hec] at hlen' ⊢
                    simp only [List.cons_append, List.nil_append]
                    simp only [List.length_cons, List.length_nil] at hlen'
                    rw [unescapeF_plain fuel c _ h2, ih cs (by omega)]
                    rfl

theorem unescape_escStr (s : List Char) : unescape (escStr s) = some s := by
  unfold unescape
  exact unescapeF_escStr _ s (by omega)

end Declcfg

namespace Declcfg

mutual
/-- Fuel consumed by `parseVal` along the recursive descent of an encoded
value: one unit per parser call on the leftmost spine. -/
def costV : JValue → Nat
  | .jnull => 1
  | .jbool _ => 1
  | .jnum _ => 1
  | .jstr _ => 1
  | .jarr xs => 1 + costE xs
  | .jobj fs => 1 + costM fs

/-- Fuel consumed by `parseMembers` over the remaining members. -/
def costM : List (List Char × JValue) → Nat
  | [] => 0
  | (_, v) :: fs => 1 + max (costV v) (costM fs)

/-- Fuel consumed by `parseElems` over the remaining elements. -/
def costE : List JValue → Nat
  | [] => 0
  | v :: vs => 1 + max (costV v) (costE vs)
end

theorem costV_jnull : costV .jnull = 1 := rfl

theorem one_le_costV (v : JValue) : 1 ≤ costV v := by
  match v with
  | .jnull => exact le_refl 1
  | .jbool b => exact le_refl 1
  | .jnum n => exact le_refl 1
  | .jstr s => exact le_refl 1
  | .jarr xs =>
    rw [show costV (.jarr xs) = 1 + costE xs from rfl]
    omega
  | .jobj fs =>
    rw [show costV (.jobj fs) = 1 + costM fs from rfl]
    omega

theorem one_le_encVal_length (v : JValue) : 1 ≤ (encVal v).length := by
  match v with
  | .jnull => decide
  | .jbool b => match b with | true => decide | false => decide
  | .jnum n =>
    match n with
    | .ofNat m =>
      obtain ⟨c, t, hct, -, -⟩ := natDigits_shape_all m
      rw [show encVal (.jnum (Int.ofNat m)) = natDigits m from rfl, hct]
      simp
    | .negSucc m =>
      rw [show encVal (.jnum (Int.negSucc m)) = '-' :: natDigits (m + 1) from rfl]
      simp
  | .jstr s =>
    rw [show encVal (.jstr s) = '"' :: escStr s ++ ['"'] from rfl]
    simp
  | .jarr xs =>
    match xs with
    | [] => decide
    | x :: xs =>
      rw [show encVal (.jarr (x :: xs)) =
        '[' :: (encVal x ++ encElems xs) ++ [']'] from rfl]
      simp
  | .jobj fs =>
    match fs with
    | [] => decide
    | f :: fs =>
      rw [show encVal (.jobj (f :: fs)) =
        '{' :: (encKV f ++ encFields fs) ++ ['}'] from rfl]
      simp

theorem cost_le_enc : ∀ N : Nat,
    (∀ v, costV v ≤ N → costV v ≤ (encVal v).length) ∧
    (∀ k v fs, costM ((k, v) :: fs) ≤ N →
      costM ((k, v) :: fs) ≤ (encKV (k, v)).length + (encFields fs).length + 1) ∧
    (∀ v vs, costE (v :: vs) ≤ N →
      costE (v :: vs) ≤ (encVal v).length + (encElems vs).length + 1) := by
  intro N
  induction N with
  | zero =>
    refine ⟨?_, ?_, ?_⟩
    · intro v hc
      have := one_le_costV v
      omega
    · intro k v fs hc
      rw [show costM ((k, v) :: fs) = 1 + max (costV v) (costM fs) from rfl] at hc
      omega
    · intro v vs hc
      rw [show costE (v :: vs) = 1 + max (costV v) (costE vs) from rfl] at hc
      omega
  | succ N ih =>
    obtain ⟨ihV, ihM, ihE⟩ := ih
    refine ⟨?_, ?_, ?_⟩
    · intro v hc
      match v with
      | .jnull => decide
      | .jbool b => match b with | true => decide | false => decide
      | .jnum n =>
        rw [show costV (.jnum n) = 1 from rfl]
        exact one_le_encVal_length _
      | .jstr s =>
        rw [show costV (.jstr s) = 1 from rfl]
        exact one_le_encVal_length _
      | .jarr [] => decide
      | .jarr (x :: xs) =>
        rw [show costV (.jarr (x :: xs)) = 1 + costE (x :: xs) from rfl] at hc ⊢
        have hE := ihE x xs (by omega)
        rw [show encVal (.jarr (x :: xs)) =
          '[' :: (encVal x ++ encElems xs) ++ [']'] from rfl]
        simp only [List.length_append, List.length_cons, List.length_nil]
        omega
      | .jobj [] => decide
      | .jobj (f :: fs) =>
        obtain ⟨k, v⟩ := f
        rw [show costV (.jobj ((k, v) :: fs)) = 1 + costM ((k, v) :: fs) from rfl]
          at hc ⊢
        have hM := ihM k v fs (by omega)
        rw [show encVal (.jobj ((k, v) :: fs)) =
          '{' :: (encKV (k, v) ++ encFields fs) ++ ['}'] from rfl]
        simp only [List.length_append, List.length_cons, List.length_nil]
        omega
    · intro k v fs hc
      rw [show costM ((k, v) :: fs) = 1 + max (costV v) (costM fs) from rfl] at hc ⊢
      have hV : costV v ≤ (encVal v).length := by
        apply ihV
        omega
      match fs with
      | [] =>
        rw [show costM ([] : List (List Char × JValue)) = 0 from rfl, Nat.max_zero]
        rw [show encKV (k, v) = '"' :: escStr k ++ '"' :: ':' :: encVal v from rfl]
        simp only [List.cons_append, List.length_append, List.length_cons,
          List.length_nil]
        omega
      | (k2, v2) :: fs2 =>
        have hM : costM ((k2, v2) :: fs2) ≤
            (encKV (k2, v2)).length + (encFields fs2).length + 1 := by
          apply ihM
          omega
        rw [show encKV (k, v) = '"' :: escStr k ++ '"' :: ':' :: encVal v from rfl,
          show encFields ((k2, v2) :: fs2) =
            ',' :: encKV (k2, v2) ++ encFields fs2 from rfl]
        simp only [List.cons_append, List.length_append, List.length_cons,
          List.length_nil]
        omega
    · intro v vs hc
      rw [show costE (v :: vs) = 1 + max (costV v) (costE vs) from rfl] at hc ⊢
      have hV : costV v ≤ (encVal v).length := by
        apply ihV
        omega
      match vs with
      | [] =>
        rw [show costE ([] : List JValue) = 0 from rfl, Nat.max_zero]
        omega
      | v2 :: vs2 =>
        have hE : costE (v2 :: vs2) ≤
            (encVal v2).length + (encElems vs2).length + 1 := by
          apply ihE
          omega
        rw [show encElems (v2 :: vs2) = ',' :: encVal v2 ++ encElems vs2 from rfl]
        simp only [List.cons_append, List.length_append, List.length_cons,
          List.length_nil]
        omega

theorem costV_le_encLength (v : JValue) : costV v ≤ (encVal v).length :=
  (cost_le_enc (costV v)).1 v (le_refl _)

theorem skipWS_cons_of_not_ws {c : Char} (l : List Char) (h : isWSChar c = false) :
    skipWS (c :: l) = c :: l := by
  unfold skipWS
  rw [h]
  simp

theorem canonicalF_append_right : ∀ (acc fs : List (List Char × JValue))
    (k : List Char) (v : JValue),
    canonicalF (acc ++ (k, v) :: fs) = true → canonicalF ((k, v) :: fs) = true := by
  intro acc
  induction acc with
  | nil => intro fs k v h; exact h
  | cons a acc ih =>
    intro fs k v h
    obtain ⟨k0, v0⟩ := a
    rw [List.cons_append, canonicalF_cons] at h
    exact ih fs k v h.2.1

theorem canonicalF_acc_lt : ∀ (acc fs : List (List Char × JValue))
    (k : List Char) (v : JValue),
    canonicalF (acc ++ (k, v) :: fs) = true → ∀ p ∈ acc, ltKey p.1 k = true := by
  intro acc
  induction acc with
  | nil =>
    intro fs k v _ p hp
    simp at hp
  | cons a acc ih =>
    intro fs k v h p hp
    obtain ⟨k0, v0⟩ := a
    rw [List.cons_append] at h
    rcases List.mem_cons.mp hp with rfl | hp'
    · exact canonicalF_lt_all _ k0 v0 h (k, v) (by simp)
    · exact ih fs k v (canonicalF_cons.mp h).2.1 p hp'

theorem insertField_append_end : ∀ (acc : List (List Char × JValue))
    (k : List Char) (v : JValue),
    (∀ p ∈ acc, ltKey p.1 k = true) → insertField k v acc = acc ++ [(k, v)] := by
  intro acc
  induction acc with
  | nil => intro k v _; rfl
  | cons a acc ih =>
    intro k v h
    obtain ⟨k0, v0⟩ := a
    have h0 : ltKey k0 k = true := h (k0, v0) (by simp)
    unfold insertField
    rw [if_neg (by rw [ltKey_asymm h0]; simp : ¬ltKey k k0 = true)]
    rw [if_neg (Ne.symm (ltKey_ne h0))]
    rw [ih k v (fun p hp => h p (by simp [hp]))]
    rfl

theorem canonicalL_mem : ∀ (xs : List JValue), canonicalL xs = true →
    ∀ v ∈ xs, canonicalV v = true := by
  intro xs
  induction xs with
  | nil =>
    intro _ v hv
    simp at hv
  | cons x xs ih =>
    intro h v hv
    rw [show canonicalL (x :: xs) = (canonicalV x && canonicalL xs) from rfl,
      Bool.and_eq_true] at h
    rcases List.mem_cons.mp hv with rfl | hv'
    · exact h.1
    · exact ih h.2 v hv'

theorem encVal_head (v : JValue) : ∃ c t, encVal v = c :: t ∧ isWSChar c = false ∧
    c ≠ ']' ∧ c ≠ '}' := by
  match v with
  | .jnull => exact ⟨'n', _, rfl, by decide, by decide, by decide⟩
  | .jbool true => exact ⟨'t', _, rfl, by decide, by decide, by decide⟩
  | .jbool false => exact ⟨'f', _, rfl, by decide, by decide, by decide⟩
  | .jnum n =>
    match n with
    | .ofNat m =>
      obtain ⟨c, t, hct, hdig, -⟩ := natDigits_shape_all m
      exact ⟨c, t, hct, isWSChar_false_of_isDigit hdig,
        ne_of_isDigit ']' hdig (by decide), ne_of_isDigit '}' hdig (by decide)⟩
    | .negSucc m =>
      exact ⟨'-', natDigits (m + 1), rfl, by decide, by decide, by decide⟩
  | .jstr s =>
    refine ⟨'"', escStr s ++ ['"'], ?_, by decide, by decide, by decide⟩
    rw [show encVal (.jstr s) = '"' :: escStr s ++ ['"'] from rfl]
    simp
  | .jarr xs =>
    match xs with
    | [] => exact ⟨'[', [']'], rfl, by decide, by decide, by decide⟩
    | x :: xs =>
      refine ⟨'[', (encVal x ++ encElems xs) ++ [']'], ?_, by decide, by decide,
        by decide⟩
      rw [show encVal (.jarr (x :: xs)) =
        '[' :: (encVal x ++ encElems xs) ++ [']'] from rfl]
      simp
  | .jobj fs =>
    match fs with
    | [] => exact ⟨'{', ['}'], rfl, by decide, by decide, by decide⟩
    | f :: fs =>
      refine ⟨'{', (encKV f ++ encFields fs) ++ ['}'], ?_, by decide, by decide,
        by decide⟩
      rw [show encVal (.jobj (f :: fs)) =
        '{' :: (encKV f ++ encFields fs) ++ ['}'] from rfl]
      simp

end Declcfg

namespace Declcfg

theorem parse_encVal : ∀ fuel : Nat,
    (∀ v rest, canonicalV v = true → numStop rest = true → costV v ≤ fuel →
      parseVal fuel (encVal v ++ rest) = some (v, rest)) ∧
    (∀ k v fs acc rest, canonicalF (acc ++ (k, v) :: fs) = true →
      costM ((k, v) :: fs) ≤ fuel →
      parseMembers fuel ('"' :: (escStr k ++ '"' :: (':' :: (encVal v ++
        (encFields fs ++ '}' :: rest))))) acc =
        some (.jobj (acc ++ (k, v) :: fs), rest)) ∧
    (∀ v vs acc rest, canonicalL (acc ++ v :: vs) = true →
      costE (v :: vs) ≤ fuel →
      parseElems fuel (encVal v ++ (encElems vs ++ ']' :: rest)) acc =
        some (.jarr (acc ++ v :: vs), rest)) := by
  intro fuel
  induction fuel with
  | zero =>
    refine ⟨?_, ?_, ?_⟩
    · intro v rest _ _ hcost
      have := one_le_costV v
      omega
    · intro k v fs acc rest _ hcost
      rw [show costM ((k, v) :: fs) = 1 + max (costV v) (costM fs) from rfl] at hcost
      omega
    · intro v vs acc rest _ hcost
      rw [show costE (v :: vs) = 1 + max (costV v) (costE vs) from rfl] at hcost
      omega
  | succ fuel ih =>
    obtain ⟨ihV, ihM, ihE⟩ := ih
    refine ⟨?_, ?_, ?_⟩
    · intro v rest hcan hstop hcost
      rcases v with _ | b | n | s | xs | fs
      · rfl
      · rcases b with _ | _ <;> rfl
      · rcases n with m | m
        · obtain ⟨c, t, hct, hdig, -⟩ := natDigits_shape_all m
          have hA : c ≠ '{' := ne_of_isDigit '{' hdig (by decide)
          have hB : c ≠ '[' := ne_of_isDigit '[' hdig (by decide)
          have hC : c ≠ '"' := ne_of_isDigit '"' hdig (by decide)
          have hD : c ≠ 't' := ne_of_isDigit 't' hdig (by decide)
          have hE2 : c ≠ 'f' := ne_of_isDigit 'f' hdig (by decide)
          have hF : c ≠ 'n' := ne_of_isDigit 'n' hdig (by decide)
          rw [show encVal (.jnum (Int.ofNat m)) = natDigits m from rfl, hct,
            List.cons_append]
          rw [parseVal.eq_def]
          simp only
          rw [skipWS_cons_of_not_ws _ (isWSChar_false_of_isDigit hdig)]
          simp only
          rw [if_neg hA, if_neg hB, if_neg hC, if_neg hD, if_neg hE2, if_neg hF,
            if_pos (show (decide (c = '-') || c.isDigit) = true by
              rw [hdig]; simp)]
          rw [← List.cons_append, ← hct, lexNum_natDigits m rest hstop]
          simp only
          rw [rawToInt_natDigits m]
          rfl
        · rw [show encVal (.jnum (Int.negSucc m)) = '-' :: natDigits (m + 1)
            from rfl, List.cons_append]
          rw [show parseVal (fuel + 1) ('-' :: (natDigits (m + 1) ++ rest)) =
            (match lexNum ('-' :: (natDigits (m + 1) ++ rest)) with
             | none => none
             | some (raw, r2) =>
               match rawToInt raw with
               | none => none
               | some n2 => some (.jnum n2, r2)) from rfl]
          rw [show ('-' :: (natDigits (m + 1) ++ rest) : List Char) =
            encInt (Int.negSucc m) ++ rest from by
              rw [show encInt (Int.negSucc m) = '-' :: natDigits (m + 1) from rfl,
                List.cons_append]]
          rw [lexNum_encInt _ rest hstop]
          simp only
          rw [rawToInt_encInt]
      · rw [show encVal (.jstr s) = '"' :: escStr s ++ ['"'] from rfl]
        simp only [List.cons_append, List.append_assoc, List.nil_append]
        rw [show parseVal (fuel + 1) ('"' :: (escStr s ++ '"' :: rest)) =
          (match lexStr (escStr s ++ '"' :: rest) with
           | none => none
           | some (raw, r2) =>
             match unescape raw with
             | none => none
             | some s2 => some (.jstr s2, r2)) from rfl]
        rw [lexStr_escStr s rest]
        simp only
        rw [unescape_escStr s]
      · rcases xs with _ | ⟨x, xs⟩
        · rfl
        · rw [show encVal (.jarr (x :: xs)) =
            '[' :: (encVal x ++ encElems xs) ++ [']'] from rfl]
          simp only [List.cons_append, List.append_assoc, List.nil_append]
          rw [show parseVal (fuel + 1)
              ('[' :: (encVal x ++ (encElems xs ++ ']' :: rest))) =
            (match skipWS (encVal x ++ (encElems xs ++ ']' :: rest)) with
             | ']' :: r2 => some (JValue.jarr [], r2)
             | r2 => parseElems fuel r2 []) from rfl]
          obtain ⟨c, t, hc, hws, hne1, hne2⟩ := encVal_head x
          rw [hc, List.cons_append,
            skipWS_cons_of_not_ws _ hws]
          have hmm : (match c :: (t ++ (encElems xs ++ ']' :: rest)) with
              | ']' :: r2 => some (JValue.jarr [], r2)
              | r2 => parseElems fuel r2 []) =
              parseElems fuel (c :: (t ++ (encElems xs ++ ']' :: rest))) [] := by
            split
            · rename_i r2 heq
              injection heq with h1 _
              exact absurd h1 hne1
            · rfl
          rw [hmm, ← List.cons_append, ← hc]
          have hcanl : canonicalL ([] ++ x :: xs) = true := by
            rw [List.nil_append]
            exact hcan
          have hcoste : costE (x :: xs) ≤ fuel := by
            rw [show costV (.jarr (x :: xs)) = 1 + costE (x :: xs) from rfl]
              at hcost
            omega
          rw [ihE x xs [] rest hcanl hcoste]
          rfl
      · rcases fs with _ | ⟨⟨k, v⟩, fs⟩
        · rfl
        · rw [show encVal (.jobj ((k, v) :: fs)) =
            '{' :: (encKV (k, v) ++ encFields fs) ++ ['}'] from rfl,
            show encKV (k, v) = '"' :: escStr k ++ '"' :: ':' :: encVal v
              from rfl]
          simp only [List.cons_append, List.append_assoc, List.nil_append]
          rw [show parseVal (fuel + 1) ('{' :: ('"' :: (escStr k ++ '"' ::
              (':' :: (encVal v ++ (encFields fs ++ '}' :: rest)))))) =
            parseMembers fuel ('"' :: (escStr k ++ '"' ::
              (':' :: (encVal v ++ (encFields fs ++ '}' :: rest))))) []
            from rfl]
          have hcanf : canonicalF ([] ++ (k, v) :: fs) = true := by
            rw [List.nil_append]
            exact hcan
          have hcostm : costM ((k, v) :: fs) ≤ fuel := by
            rw [show costV (.jobj ((k, v) :: fs)) = 1 + costM ((k, v) :: fs)
              from rfl] at hcost
            omega
          rw [ihM k v fs [] rest hcanf hcostm]
          rfl
    · intro k v fs acc rest hcan hcost
      have hstep : parseMembers (fuel + 1) ('"' :: (escStr k ++ '"' ::
          (':' :: (encVal v ++ (encFields fs ++ '}' :: rest))))) acc =
          (match lexStr (escStr k ++ '"' :: (':' :: (encVal v ++
              (encFields fs ++ '}' :: rest)))) with
           | none => none
           | some (kraw, r2) =>
             match unescape kraw with
             | none => none
             | some k2 =>
               match skipWS r2 with
               | ':' :: r3 =>
                 match parseVal fuel r3 with
                 | none => none
                 | some (v2, r4) =>
                   match skipWS r4 with
                   | ',' :: r5 => parseMembers fuel (skipWS r5)
                       (insertField k2 v2 acc)
                   | '}' :: r5 => some (.jobj (insertField k2 v2 acc), r5)
                   | _ => none
               | _ => none) := rfl
      rw [hstep, lexStr_escStr k (':' :: (encVal v ++
        (encFields fs ++ '}' :: rest)))]
      simp only
      rw [unescape_escStr k]
      simp only
      trans (match parseVal fuel (encVal v ++ (encFields fs ++ '}' :: rest)) with
         | none => none
         | some (v2, r4) =>
           match skipWS r4 with
           | ',' :: r5 => parseMembers fuel (skipWS r5) (insertField k v2 acc)
           | '}' :: r5 => some (.jobj (insertField k v2 acc), r5)
           | _ => none)
      · rfl
      have hcanv : canonicalV v = true :=
        (canonicalF_cons.mp (canonicalF_append_right acc fs k v hcan)).1
      have hstop2 : numStop (encFields fs ++ '}' :: rest) = true := by
        rcases fs with _ | ⟨⟨k2, v2⟩, fs2⟩
        · rw [show encFields ([] : List (List Char × JValue)) = [] from rfl,
            List.nil_append]
          simp [numStop]
        · rw [show encFields ((k2, v2) :: fs2) =
            ',' :: encKV (k2, v2) ++ encFields fs2 from rfl]
          simp [numStop]
      have hcostv : costV v ≤ fuel := by
        rw [show costM ((k, v) :: fs) = 1 + max (costV v) (costM fs) from rfl]
          at hcost
        omega
      rw [ihV v _ hcanv hstop2 hcostv]
      simp only
      rcases fs with _ | ⟨⟨k2, v2⟩, fs2⟩
      · rw [show encFields ([] : List (List Char × JValue)) = [] from rfl,
          List.nil_append]
        rw [show (match skipWS ('}' :: rest) with
            | ',' :: r5 => parseMembers fuel (skipWS r5) (insertField k v acc)
            | '}' :: r5 => some (.jobj (insertField k v acc), r5)
            | _ => none) = some (.jobj (insertField k v acc), rest) from rfl]
        rw [insertField_append_end acc k v (canonicalF_acc_lt acc [] k v hcan)]
      · rw [show encFields ((k2, v2) :: fs2) =
          ',' :: encKV (k2, v2) ++ encFields fs2 from rfl,
          show encKV (k2, v2) = '"' :: escStr k2 ++ '"' :: ':' :: encVal v2
            from rfl]
        simp only [List.cons_append, List.append_assoc]
        rw [show (match skipWS (',' :: ('"' :: (escStr k2 ++ '"' ::
            (':' :: (encVal v2 ++ (encFields fs2 ++ '}' :: rest)))))) with
            | ',' :: r5 => parseMembers fuel (skipWS r5) (insertField k v acc)
            | '}' :: r5 => some (.jobj (insertField k v acc), r5)
            | _ => none) =
          parseMembers fuel (skipWS ('"' :: (escStr k2 ++ '"' ::
            (':' :: (encVal v2 ++ (encFields fs2 ++ '}' :: rest))))))
            (insertField k v acc) from rfl]
        rw [skipWS_cons_of_not_ws _ (by decide : isWSChar '"' = false)]
        rw [insertField_append_end acc k v
          (canonicalF_acc_lt acc ((k2, v2) :: fs2) k v hcan)]
        have hcan2 : canonicalF ((acc ++ [(k, v)]) ++ (k2, v2) :: fs2) = true := by
          rw [List.append_assoc]
          exact hcan
        have hcost2 : costM ((k2, v2) :: fs2) ≤ fuel := by
          rw [show costM ((k, v) :: (k2, v2) :: fs2) =
            1 + max (costV v) (costM ((k2, v2) :: fs2)) from rfl] at hcost
          omega
        rw [ihM k2 v2 fs2 (acc ++ [(k, v)]) rest hcan2 hcost2,
          List.append_assoc]
        rfl
    · intro v vs acc rest hcan hcost
      have hstep : parseElems (fuel + 1) (encVal v ++
          (encElems vs ++ ']' :: rest)) acc =
          (match parseVal fuel (encVal v ++ (encElems vs ++ ']' :: rest)) with
           | none => none
           | some (v2, r) =>
             match skipWS r with
             | ',' :: r2 => parseElems fuel r2 (acc ++ [v2])
             | ']' :: r2 => some (.jarr (acc ++ [v2]), r2)
             | _ => none) := rfl
      rw [hstep]
      have hcanv : canonicalV v = true := canonicalL_mem _ hcan v (by simp)
      have hstop2 : numStop (encElems vs ++ ']' :: rest) = true := by
        rcases vs with _ | ⟨v2, vs2⟩
        · rw [show encElems ([] : List JValue) = [] from rfl, List.nil_append]
          simp [numStop]
        · rw [show encElems (v2 :: vs2) = ',' :: encVal v2 ++ encElems vs2
            from rfl]
          simp [numStop]
      have hcostv : costV v ≤ fuel := by
        rw [show costE (v :: vs) = 1 + max (costV v) (costE vs) from rfl] at hcost
        omega
      rw [ihV v _ hcanv hstop2 hcostv]
      simp only
      rcases vs with _ | ⟨v2, vs2⟩
      · rw [show encElems ([] : List JValue) = [] from rfl, List.nil_append]
        rw [show (match skipWS (']' :: rest) with
            | ',' :: r2 => parseElems fuel r2 (acc ++ [v])
            | ']' :: r2 => some (.jarr (acc ++ [v]), r2)
            | _ => none) = some (.jarr (acc ++ [v]), rest) from rfl]
      · rw [show encElems (v2 :: vs2) = ',' :: encVal v2 ++ encElems vs2
          from rfl]
        simp only [List.cons_append, List.append_assoc]
        rw [show (match skipWS (',' :: (encVal v2 ++
            (encElems vs2 ++ ']' :: rest))) with
            | ',' :: r2 => parseElems fuel r2 (acc ++ [v])
            | ']' :: r2 => some (.jarr (acc ++ [v]), r2)
            | _ => none) =
          parseElems fuel (encVal v2 ++ (encElems vs2 ++ ']' :: rest))
            (acc ++ [v]) from rfl]
        have hcan2 : canonicalL ((acc ++ [v]) ++ v2 :: vs2) = true := by
          rw [List.append_assoc]
          exact hcan
        have hcost2 : costE (v2 :: vs2) ≤ fuel := by
          rw [show costE (v :: v2 :: vs2) =
            1 + max (costV v) (costE (v2 :: vs2)) from rfl] at hcost
          omega
        rw [ihE v2 vs2 (acc ++ [v]) rest hcan2 hcost2, List.append_assoc]
        rfl

end Declcfg

namespace Declcfg

theorem parseDoc_enc (v : JValue) (hcan : canonicalV v = true) :
    parseDoc (encVal v ++ ['\n']) = some v := by
  unfold parseDoc
  have hfuel : costV v ≤ (encVal v ++ ['\n']).length + 1 := by
    have h1 := costV_le_encLength v
    have h2 : (encVal v).length ≤ (encVal v ++ ['\n']).length := by
      rw [List.length_append]
      omega
    omega
  rw [(parse_encVal ((encVal v ++ ['\n']).length + 1)).1 v ['\n'] hcan (by decide)
    hfuel]
  simp only
  rw [show skipWS ['\n'] = ([] : List Char) from rfl, if_pos rfl]

theorem extractLoop_none_indep : ∀ (fields : List (List Char × MetaField))
    (ks : List (List Char × List (List Char))) (bm : List (List Char × JValue))
    (m1 : Meta), (extractLoop fields ks bm m1).2 = none →
    ∀ m2 : Meta, (extractLoop fields ks bm m2).2 = none := by
  intro fields
  induction fields with
  | nil =>
    intro ks bm m1 _ m2
    rfl
  | cons p fields ih =>
    intro ks bm m1 h m2
    obtain ⟨fk, f⟩ := p
    rw [show extractLoop ((fk, f) :: fields) ks bm m1 =
      (match lookupKS ks fk with
       | none => extractLoop fields ks bm m1
       | some bucket =>
         match bucket with
         | [] => extractLoop fields ks bm m1
         | key :: _ =>
           match lookupBM bm key with
           | none => extractLoop fields ks bm m1
           | some (.jstr s) => extractLoop fields ks bm (setField f s m1)
           | some v => (m1, some (.typeMismatch key v))) from rfl] at h
    rw [show extractLoop ((fk, f) :: fields) ks bm m2 =
      (match lookupKS ks fk with
       | none => extractLoop fields ks bm m2
       | some bucket =>
         match bucket with
         | [] => extractLoop fields ks bm m2
         | key :: _ =>
           match lookupBM bm key with
           | none => extractLoop fields ks bm m2
           | some (.jstr s) => extractLoop fields ks bm (setField f s m2)
           | some v => (m2, some (.typeMismatch key v))) from rfl]
    match hlk : lookupKS ks fk with
    | none =>
      rw [hlk] at h
      simp only at h ⊢
      exact ih ks bm m1 h m2
    | some [] =>
      rw [hlk] at h
      simp only at h ⊢
      exact ih ks bm m1 h m2
    | some (key :: keys) =>
      rw [hlk] at h
      simp only at h ⊢
      match hlb : lookupBM bm key with
      | none =>
        rw [hlb] at h
        simp only at h ⊢
        exact ih ks bm m1 h m2
      | some .jnull =>
        rw [hlb] at h
        simp at h
      | some (.jbool b) =>
        rw [hlb] at h
        simp at h
      | some (.jnum n) =>
        rw [hlb] at h
        simp at h
      | some (.jarr xs) =>
        rw [hlb] at h
        simp at h
      | some (.jobj fs2) =>
        rw [hlb] at h
        simp at h
      | some (.jstr s) =>
        rw [hlb] at h
        simp only at h ⊢
        exact ih ks bm (setField f s m1) h (setField f s m2)

theorem parseDoc_jobj_canonical : ∀ (blob : List Char)
    (bm : List (List Char × JValue)),
    parseDoc blob = some (.jobj bm) → canonicalF bm = true := by
  intro blob bm hparse
  unfold parseDoc at hparse
  match hpv : parseVal (blob.length + 1) blob with
  | none =>
    rw [hpv] at hparse
    exact absurd hparse (by simp)
  | some (v, rest) =>
    rw [hpv] at hparse
    simp only at hparse
    split at hparse
    · rw [Option.some.injEq] at hparse
      have hcv := (parse_canonical (blob.length + 1)).1 blob v rest hpv
      rw [hparse] at hcv
      exact hcv
    · exact absurd hparse (by simp)

/-- C5: decode-then-encode is canonicalizing and idempotent at the byte
level: when a decode succeeds, its payload bytes (what encode returns)
decode again successfully — into any target `Meta` — and re-encoding the
result reproduces the payload byte for byte. -/
theorem decode_encode_idempotent (blob : List Char) (m m1 : Meta)
    (h : unmarshalMeta blob m = (m1, none)) (m0 : Meta) :
    ∃ m2, unmarshalMeta (marshalMeta m1).1 m0 = (m2, none) ∧
      (marshalMeta m2).1 = (marshalMeta m1).1 := by
  unfold unmarshalMeta at h
  match hp : parseDoc blob with
  | none =>
    rw [hp] at h
    simp at h
  | some .jnull =>
    rw [hp] at h
    simp at h
  | some (.jbool b) =>
    rw [hp] at h
    simp at h
  | some (.jnum n) =>
    rw [hp] at h
    simp at h
  | some (.jstr s) =>
    rw [hp] at h
    simp at h
  | some (.jarr xs) =>
    rw [hp] at h
    simp at h
  | some (.jobj bm) =>
    rw [hp] at h
    simp only at h
    match hex : extractUniqueMetaKeys bm m with
    | (m', some e) =>
      rw [hex] at h
      simp at h
    | (m', none) =>
      rw [hex] at h
      simp only at h
      have hm1 : { m' with Blob := encVal (.jobj bm) ++ ['\n'] } = m1 :=
        (Prod.mk.injEq .. ▸ h).1
      have hblob : m1.Blob = encVal (.jobj bm) ++ ['\n'] := by
        rw [← hm1]
      have hcan : canonicalV (.jobj bm) = true :=
        parseDoc_jobj_canonical blob bm hp
      have hp2 : parseDoc m1.Blob = some (.jobj bm) := by
        rw [hblob]
        exact parseDoc_enc _ hcan
      show ∃ m2, unmarshalMeta m1.Blob m0 = (m2, none) ∧ m2.Blob = m1.Blob
      unfold unmarshalMeta
      rw [hp2]
      simp only
      unfold extractUniqueMetaKeys at hex ⊢
      by_cases hd : dupKeyErrs bm = []
      · rw [if_pos hd] at hex ⊢
        have hnone : (extractLoop metaFields (buildKeySets bm []) bm m0).2 =
            none := by
          apply extractLoop_none_indep _ _ _ m _ m0
          rw [hex]
        match hel : extractLoop metaFields (buildKeySets bm []) bm m0 with
        | (m2', e2) =>
          rw [hel] at hnone
          simp only at hnone
          subst hnone
          exact ⟨_, rfl, hblob.symm⟩
      · rw [if_neg hd] at hex
        simp at hex

/-- C6: on success the payload is the deterministic re-encoding (sorted
keys, HTML escaping disabled, trailing newline) of the complete parsed
object, and decoding the payload recovers exactly that object: every key
and value, including the ones matched to schema/package/name, is
preserved. -/
theorem unmarshal_blob_complete (blob : List Char) (m m' : Meta)
    (h : unmarshalMeta blob m = (m', none)) :
    ∃ bm, parseDoc blob = some (.jobj bm) ∧
      m'.Blob = encVal (.jobj bm) ++ ['\n'] ∧
      parseDoc m'.Blob = some (.jobj bm) := by
  unfold unmarshalMeta at h
  match hp : parseDoc blob with
  | none =>
    rw [hp] at h
    simp at h
  | some .jnull =>
    rw [hp] at h
    simp at h
  | some (.jbool b) =>
    rw [hp] at h
    simp at h
  | some (.jnum n) =>
    rw [hp] at h
    simp at h
  | some (.jstr s) =>
    rw [hp] at h
    simp at h
  | some (.jarr xs) =>
    rw [hp] at h
    simp at h
  | some (.jobj bm) =>
    rw [hp] at h
    simp only at h
    match hex : extractUniqueMetaKeys bm m with
    | (m'', some e) =>
      rw [hex] at h
      simp at h
    | (m'', none) =>
      rw [hex] at h
      simp only at h
      have hm1 : { m'' with Blob := encVal (.jobj bm) ++ ['\n'] } = m' :=
        (Prod.mk.injEq .. ▸ h).1
      have hblob : m'.Blob = encVal (.jobj bm) ++ ['\n'] := by
        rw [← hm1]
      have hcan : canonicalV (.jobj bm) = true :=
        parseDoc_jobj_canonical blob bm hp
      refine ⟨bm, rfl, hblob, ?_⟩
      rw [hblob]
      exact parseDoc_enc _ hcan

/-- C5 witness: the idempotence theorem applied to the document
holding a schema field. -/
theorem decode_encode_idempotent_witness :
    ∃ m2, unmarshalMeta (marshalMeta (unmarshalMeta
        "\x7b\"schema\":\"a\"\x7d".data emptyMeta).1).1 emptyMeta =
        (m2, none) ∧
      (marshalMeta m2).1 =
        (marshalMeta (unmarshalMeta "\x7b\"schema\":\"a\"\x7d".data
          emptyMeta).1).1 :=
  decode_encode_idempotent "\x7b\"schema\":\"a\"\x7d".data emptyMeta
    (unmarshalMeta "\x7b\"schema\":\"a\"\x7d".data emptyMeta).1 (by rfl) emptyMeta

/-- C6 witness: the payload-completeness theorem applied to a document with
an extra key besides name. -/
theorem unmarshal_blob_complete_witness :
    ∃ bm, parseDoc "\x7b\"a\":1,\"name\":\"n\"\x7d".data = some (.jobj bm) ∧
      (unmarshalMeta "\x7b\"a\":1,\"name\":\"n\"\x7d".data emptyMeta).1.Blob =
        encVal (.jobj bm) ++ ['\n'] ∧
      parseDoc (unmarshalMeta "\x7b\"a\":1,\"name\":\"n\"\x7d".data
        emptyMeta).1.Blob = some (.jobj bm) :=
  unmarshal_blob_complete "\x7b\"a\":1,\"name\":\"n\"\x7d".data emptyMeta
    (unmarshalMeta "\x7b\"a\":1,\"name\":\"n\"\x7d".data emptyMeta).1 (by rfl)

end Declcfg
